import Mathlib

set_option linter.unusedVariables false

/-!
Shallow embedding of the Broom repository's core (src/core.py and the pieces of
src/utils.py it imports): a filesystem model over relative paths, the two plan
appliers (FileOrganizer.execute_plan, FolderOrganizer.execute_plan), the
history managers (UndoManager.run, RedoManager.run), and the plan-merging code
of FileOrganizer.organize and FolderOrganizer.organize.

Modelling conventions:
* A relative path is a list of components (`os.path.join dir c = dir ++ [c]`,
  `os.path.basename = getLastD ""`, `os.path.dirname = dropLast`).  Category
  names produced by the classifier are treated as single components.
* The filesystem under the organize root is a pair of lists: the file paths and
  the directory paths currently present.  The two reserved log files
  (.broom_undo.json / .broom_redo.json) are excluded from the filesystem and
  modelled as two `Option` slots of a `World`, matching how the code never
  indexes them and accesses them only through json load/dump and os.rename.
* `shutil.move` / `os.rename` / `os.makedirs` / `os.rmdir` / `os.listdir` are
  modelled with their observable behaviour on same-device POSIX moves:
  a rename remaps the moved subtree in place, moving onto an existing
  directory moves *into* it, moving a file onto an existing file overwrites it,
  `os.makedirs` is all-or-nothing and fails when a prefix is a regular file.
* Exceptions are modelled by an error component that short-circuits the rest
  of the Python statement sequence, returning the state reached so far.
-/

/-- A path relative to the organize root, as a list of components. -/
abbrev RelPath := List String

/-- os.path.basename. -/
def basename (p : RelPath) : String := p.getLastD ""

/-- os.path.dirname. -/
def parentDir (p : RelPath) : RelPath := p.dropLast

/-- The filesystem below the organize root: files and directories present.
The root itself always exists and is not listed. -/
structure FS where
  files : List RelPath
  dirs : List RelPath
deriving DecidableEq, Repr

/-- All entries (files then directories). -/
def FS.entries (fs : FS) : List RelPath := fs.files ++ fs.dirs

/-- os.path.exists (relative to the root). -/
def FS.existsPath (fs : FS) (p : RelPath) : Bool := fs.files.contains p || fs.dirs.contains p

/-- os.path.isdir. -/
def FS.isDir (fs : FS) (p : RelPath) : Bool := fs.dirs.contains p

/-- os.path.isfile. -/
def FS.isFile (fs : FS) (p : RelPath) : Bool := fs.files.contains p

/-- Errors raised by the modelled filesystem calls (OSError family). -/
inductive FsErr
  | destExists
  | notADirectory
  | moveFailed
deriving DecidableEq, Repr

/-- The nonempty prefixes of a path, shortest first. -/
def prefixesOf (p : RelPath) : List RelPath := (List.range p.length).map (fun i => p.take (i + 1))

/-- os.makedirs(root/p, exist_ok=True): creates every missing intermediate
directory; raises when some prefix of `p` exists as a regular file. -/
def FS.mkdirs (fs : FS) (p : RelPath) : Except FsErr FS :=
  if (prefixesOf p).any (fun q => fs.files.contains q) then .error .notADirectory
  else .ok { fs with dirs := fs.dirs ++ (prefixesOf p).filter (fun q => !fs.dirs.contains q) }

/-- Remap one stored path under a rename of `src` to `dst`. -/
def remapPath (src dst : RelPath) (q : RelPath) : RelPath :=
  if src.isPrefixOf q then dst ++ q.drop src.length else q

/-- os.rename(root/src, root/dst) on an existing `src`, with `dst` either
absent or an overwritable plain file: the whole subtree below `src` is
remapped in place, a plain file previously at `dst` is replaced. -/
def FS.rename (fs : FS) (src dst : RelPath) : FS :=
  { files := (fs.files.filter (fun q => !(q == dst))).map (remapPath src dst),
    dirs := (fs.dirs.filter (fun q => !(q == dst))).map (remapPath src dst) }

/-- shutil.move(root/src, root/dst) for an existing `src`: moving onto an
existing directory moves into it (failing when the landing path exists),
moving a directory onto an existing file fails, otherwise an os.rename. -/
def FS.move (fs : FS) (src dst : RelPath) : Except FsErr FS :=
  if fs.isDir dst then
    let rd := dst ++ [basename src]
    if fs.existsPath rd then .error .destExists
    else .ok (fs.rename src rd)
  else if fs.isFile dst then
    if fs.isDir src then .error .moveFailed
    else .ok (fs.rename src dst)
  else .ok (fs.rename src dst)

/-- Whether os.listdir(root/p) would be empty: no strict descendant of `p`. -/
def FS.dirEmpty (fs : FS) (p : RelPath) : Bool :=
  fs.entries.all (fun q => !(p.isPrefixOf q) || p == q)

/-- One logged move: {"source": ..., "dest": ...}. -/
structure UndoAction where
  source : RelPath
  dest : RelPath
deriving DecidableEq, Repr

/-- A files-mode plan member: the AI may return a plain path string or a
path-bearing record; `item['path'] if isinstance(item, dict) else item`. -/
inductive Member
  | plainPath (p : RelPath)
  | record (p : RelPath)
deriving DecidableEq, Repr

/-- The path carried by a member. -/
def Member.path : Member → RelPath
  | .plainPath p => p
  | .record p => p

/-- A files-mode plan: insertion-ordered category → members, unique keys. -/
abbrev FilesPlan := List (String × List Member)

/-- A folders-mode plan: insertion-ordered category → child folder names. -/
abbrev FoldersPlan := List (String × List String)

/-- Result of an applier: filesystem reached, undo actions recorded so far,
and the exception (if one escaped the loop). -/
structure ExecOut where
  fs : FS
  acts : List UndoAction
  err : Option FsErr
deriving DecidableEq, Repr

/-- Inner loop of FileOrganizer.execute_plan over one category's members:
destination is category/basename(source); a vanished source is skipped
silently; otherwise the action is appended (before the move, as in the code)
and the move performed. -/
def fileMoveItems (fs : FS) (folder : String) (items : List Member) (acc : List UndoAction) :
    ExecOut :=
  match items with
  | [] => ⟨fs, acc, none⟩
  | m :: rest =>
    let src := m.path
    let dst : RelPath := [folder, basename src]
    if fs.existsPath src then
      match fs.move src dst with
      | .ok fs' => fileMoveItems fs' folder rest (acc ++ [⟨src, dst⟩])
      | .error e => ⟨fs, acc ++ [⟨src, dst⟩], some e⟩
    else fileMoveItems fs folder rest acc

/-- Outer loop of FileOrganizer.execute_plan: per category, os.makedirs the
category directory then move the members. -/
def fileExecCats (fs : FS) (plan : FilesPlan) (acc : List UndoAction) : ExecOut :=
  match plan with
  | [] => ⟨fs, acc, none⟩
  | (folder, items) :: rest =>
    match fs.mkdirs [folder] with
    | .error e => ⟨fs, acc, some e⟩
    | .ok fs1 =>
      match fileMoveItems fs1 folder items acc with
      | ⟨fs2, acts2, none⟩ => fileExecCats fs2 rest acts2
      | r => r

/-- FileOrganizer.execute_plan (src/core.py lines 137-164), up to the final
`UndoManager.save_undo_log` which is modelled in `applyFilesPlan`. -/
def FileOrganizer.execute_plan (fs : FS) (plan : FilesPlan) : ExecOut :=
  fileExecCats fs plan []

/-- Inner loop of FolderOrganizer.execute_plan: a member equal to its parent
is skipped; only existing directories are moved; the action is appended
before the move. -/
def folderMoveItems (fs : FS) (parent : String) (subs : List String) (acc : List UndoAction) :
    ExecOut :=
  match subs with
  | [] => ⟨fs, acc, none⟩
  | s :: rest =>
    if parent = s then folderMoveItems fs parent rest acc
    else if fs.isDir [s] then
      match fs.move [s] [parent, s] with
      | .ok fs' => folderMoveItems fs' parent rest (acc ++ [⟨[s], [parent, s]⟩])
      | .error e => ⟨fs, acc ++ [⟨[s], [parent, s]⟩], some e⟩
    else folderMoveItems fs parent rest acc

/-- Outer loop of FolderOrganizer.execute_plan: the `_standalone` sentinel is
skipped before any directory creation; otherwise mkdir the parent category
and move the children into it. -/
def folderExecCats (fs : FS) (plan : FoldersPlan) (acc : List UndoAction) : ExecOut :=
  match plan with
  | [] => ⟨fs, acc, none⟩
  | (parent, subs) :: rest =>
    if parent = "_standalone" then folderExecCats fs rest acc
    else
      match fs.mkdirs [parent] with
      | .error e => ⟨fs, acc, some e⟩
      | .ok fs1 =>
        match folderMoveItems fs1 parent subs acc with
        | ⟨fs2, acts2, none⟩ => folderExecCats fs2 rest acts2
        | r => r

/-- FolderOrganizer.execute_plan (src/core.py lines 251-280), up to the final
`UndoManager.save_undo_log` which is modelled in `applyFoldersPlan`. -/
def FolderOrganizer.execute_plan (fs : FS) (plan : FoldersPlan) : ExecOut :=
  folderExecCats fs plan []

/-- The organize root's full state: filesystem plus the two reserved log
slots (.broom_undo.json and .broom_redo.json). -/
structure World where
  fs : FS
  undoLog : Option (List UndoAction)
  redoLog : Option (List UndoAction)
deriving DecidableEq, Repr

/-- UndoManager.save_undo_log: writes the undo log file, overwriting any
previous undo log; it does not touch the redo log file. -/
def UndoManager.save_undo_log (w : World) (acts : List UndoAction) : World :=
  { w with undoLog := some acts }

/-- FileOrganizer.execute_plan followed by the `if undo_actions:` persistence:
an exception escapes without persisting anything. -/
def applyFilesPlan (w : World) (plan : FilesPlan) : World × Option FsErr :=
  match FileOrganizer.execute_plan w.fs plan with
  | ⟨fs1, acts, some e⟩ => ({ w with fs := fs1 }, some e)
  | ⟨fs1, acts, none⟩ =>
    if acts.isEmpty then ({ w with fs := fs1 }, none)
    else (UndoManager.save_undo_log { w with fs := fs1 } acts, none)

/-- FolderOrganizer.execute_plan followed by the same persistence step. -/
def applyFoldersPlan (w : World) (plan : FoldersPlan) : World × Option FsErr :=
  match FolderOrganizer.execute_plan w.fs plan with
  | ⟨fs1, acts, some e⟩ => ({ w with fs := fs1 }, some e)
  | ⟨fs1, acts, none⟩ =>
    if acts.isEmpty then ({ w with fs := fs1 }, none)
    else (UndoManager.save_undo_log { w with fs := fs1 } acts, none)

/-- Errors of the history managers: sys.exit on a missing log, or a
propagated filesystem exception. -/
inductive HistErr
  | noHistory
  | fsErr (e : FsErr)
deriving DecidableEq, Repr

/-- One reverse step of UndoManager.run: makedirs(dirname(source)) always
runs, then the move dest → source happens only if the file is still there. -/
def undoStep (fs : FS) (a : UndoAction) : FS × Option FsErr :=
  match fs.mkdirs (parentDir a.source) with
  | .error e => (fs, some e)
  | .ok fs1 =>
    if fs1.existsPath a.dest then
      match fs1.move a.dest a.source with
      | .ok fs2 => (fs2, none)
      | .error e => (fs1, some e)
    else (fs1, none)

/-- One forward step of RedoManager.run: makedirs(dirname(dest)), then the
move source → dest if the source is still there. -/
def redoStep (fs : FS) (a : UndoAction) : FS × Option FsErr :=
  match fs.mkdirs (parentDir a.dest) with
  | .error e => (fs, some e)
  | .ok fs1 =>
    if fs1.existsPath a.source then
      match fs1.move a.source a.dest with
      | .ok fs2 => (fs2, none)
      | .error e => (fs1, some e)
    else (fs1, none)

/-- Run a list of move steps, stopping at the first exception with the state
reached at that point. -/
def runMoves (step : FS → UndoAction → FS × Option FsErr) (fs : FS) (acts : List UndoAction) :
    FS × Option FsErr :=
  match acts with
  | [] => (fs, none)
  | a :: rest =>
    match step fs a with
    | (fs', none) => runMoves step fs' rest
    | (fs', some e) => (fs', some e)

/-- The distinct destination-parent directories of a list of actions (the
code iterates a Python set built from them; set iteration order is
unspecified, the model fixes one deduplicated enumeration). -/
def destParents (acts : List UndoAction) : List RelPath :=
  (acts.map (fun a => parentDir a.dest)).dedup

/-- One cleanup step of UndoManager.run: `if exists and not listdir: rmdir`.
os.listdir on a plain file raises outside the try/except; os.rmdir on an
existing empty directory succeeds, so the warning branch is unreachable in
the model. -/
def undoCleanup1 (fs : FS) (p : RelPath) : FS × Option FsErr :=
  if fs.existsPath p then
    if fs.isDir p then
      if fs.dirEmpty p then ({ fs with dirs := fs.dirs.erase p }, none)
      else (fs, none)
    else (fs, some .notADirectory)
  else (fs, none)

/-- The cleanup loop over the distinct destination parents. -/
def undoCleanup (fs : FS) (ps : List RelPath) : FS × Option FsErr :=
  match ps with
  | [] => (fs, none)
  | p :: rest =>
    match undoCleanup1 fs p with
    | (fs', none) => undoCleanup fs' rest
    | (fs', some e) => (fs', some e)

/-- UndoManager.run (src/core.py lines 301-339): missing log exits with no
mutation; otherwise replay the actions in reverse order, clean up empty
destination parents, and rename the undo log into the redo slot. -/
def UndoManager.run (w : World) : World × Option HistErr :=
  match w.undoLog with
  | none => (w, some .noHistory)
  | some acts =>
    match runMoves undoStep w.fs acts.reverse with
    | (fs1, some e) => ({ w with fs := fs1 }, some (.fsErr e))
    | (fs1, none) =>
      match undoCleanup fs1 (destParents acts) with
      | (fs2, some e) => ({ w with fs := fs2 }, some (.fsErr e))
      | (fs2, none) => (⟨fs2, none, some acts⟩, none)

/-- RedoManager.run (src/core.py lines 341-377): missing log exits with no
mutation; otherwise replay the actions in original order and rename the redo
log into the undo slot. -/
def RedoManager.run (w : World) : World × Option HistErr :=
  match w.redoLog with
  | none => (w, some .noHistory)
  | some acts =>
    match runMoves redoStep w.fs acts with
    | (fs1, some e) => ({ w with fs := fs1 }, some (.fsErr e))
    | (fs1, none) => (⟨fs1, some acts, none⟩, none)

/-- One batch's contribution to the files-mode merge
(`final_plan.setdefault(category, []).extend([f for f in files if f not in
final_plan.get(category, [])])`): the filter runs against the category's
current list, so in-batch duplicates are not filtered against each other. -/
def planMerge1 (plan : List (String × List Member)) (cat : String) (new : List Member) :
    List (String × List Member) :=
  match plan.lookup cat with
  | some cur =>
    let add := new.filter (fun f => !cur.contains f)
    plan.map (fun kv => if kv.1 = cat then (kv.1, kv.2 ++ add) else kv)
  | none => plan ++ [(cat, new)]

/-- Merge one raw batch response (its organization_plan map) into the
accumulated plan, category by category in response order. -/
def mergeBatchResponse (plan : List (String × List Member))
    (resp : List (String × List Member)) : List (String × List Member) :=
  resp.foldl (fun acc kv => planMerge1 acc kv.1 kv.2) plan

/-- The merging loop of FileOrganizer.organize over all batch responses
(identical in the streaming branch, lines 100-106, and the concurrent branch,
lines 119-127); a malformed response contributes the empty map. -/
def mergeFileBatches (resps : List (List (String × List Member))) :
    List (String × List Member) :=
  resps.foldl mergeBatchResponse []

/-- sorted(list(set(xs))) on folder names. -/
def sortDedup (xs : List String) : List String :=
  List.insertionSort (fun a b => a ≤ b) xs.dedup

/-- The folders-mode merge/dissolution step of FolderOrganizer.organize
(src/core.py lines 228-241): children equal to their parent are dropped, a
group keeps its slot only when it still has at least two children (counted
with multiplicity), dissolved children join `_standalone`, and the final
`_standalone` list is set-deduplicated and sorted. -/
def dissolveStep (acc : FoldersPlan × List String) (kv : String × List String) :
    FoldersPlan × List String :=
  let valid := kv.2.filter (fun c => c ≠ kv.1)
  if 2 ≤ valid.length then (acc.1 ++ [(kv.1, valid)], acc.2)
  else (acc.1, acc.2 ++ valid)

/-- The folders-mode merge (continued): fold the dissolution over the
non-sentinel groups, then attach the accumulated `_standalone` list. -/
def mergeFolders (raw : List (String × List String)) : FoldersPlan :=
  let standalone0 := ((raw.lookup "_standalone").getD [])
  let groups := raw.filter (fun kv => kv.1 ≠ "_standalone")
  let out := groups.foldl dissolveStep ([], standalone0)
  if out.2.isEmpty then out.1 else out.1 ++ [("_standalone", sortDedup out.2)]

/-- A file inventory entry produced by FileOrganizer.index. -/
structure FileEntry where
  path : RelPath
  fileType : String
  contentSummary : String
deriving DecidableEq, Repr

/-- Python call errors surfacing from FileOrganizer.organize. -/
inductive PyErr
  | typeError
  | systemExit
  | osError (e : FsErr)
deriving DecidableEq, Repr

/-- The parameter count of display_plan as defined in src/utils.py line 64:
`def display_plan(plan, mode)` - exactly two positional parameters. -/
def displayPlanParamCount : Nat := 2

/-- The argument count of the call in src/core.py line 129:
`display_plan(final_plan, "files", self.recursive)`. -/
def coreDisplayCallArgCount : Nat := 3

/-- Calling a plain Python function: the positional argument count must equal
the parameter count, otherwise a TypeError is raised at the call. -/
def callDisplayPlan : Except PyErr Unit :=
  if coreDisplayCallArgCount = displayPlanParamCount then .ok () else .error .typeError

/-- FileOrganizer.organize (src/core.py lines 72-135) over an already-indexed
inventory and the already-collected batch responses: exit on an empty index,
merge the batches, call display_plan, then (without dry-run and with
confirmation) execute the plan. -/
def FileOrganizer.organize (fileIndex : List FileEntry)
    (responses : List (List (String × List Member)))
    (dryRun skipConfirmation confirmYes : Bool) (w : World) : World × Option PyErr :=
  if fileIndex.isEmpty then (w, some .systemExit)
  else
    let finalPlan := mergeFileBatches responses
    match callDisplayPlan with
    | .error e => (w, some e)
    | .ok _ =>
      if !dryRun && (skipConfirmation || confirmYes) then
        match applyFilesPlan w finalPlan with
        | (w1, e) => (w1, e.map .osError)
      else (w, none)

/-- One caller-level operation on an organize root. -/
inductive Op
  | applyF (plan : FilesPlan)
  | applyD (plan : FoldersPlan)
  | undo
  | redo
deriving DecidableEq, Repr

/-- Whether the operation is a fresh apply. -/
def Op.isApply : Op → Bool
  | .applyF _ => true
  | .applyD _ => true
  | _ => false

/-- Step the world by one operation (the state reached, errors ignored). -/
def Op.step (w : World) : Op → World
  | .applyF p => (applyFilesPlan w p).1
  | .applyD p => (applyFoldersPlan w p).1
  | .undo => (UndoManager.run w).1
  | .redo => (RedoManager.run w).1

/-- Run a sequence of operations. -/
def runOps (w : World) (ops : List Op) : World := ops.foldl Op.step w

/-- At most one of the two log files exists. -/
def atMostOneLog (w : World) : Prop := w.undoLog = none ∨ w.redoLog = none

/-- Every apply in the sequence happens while no redo log is present. -/
def safeOps (w : World) : List Op → Bool
  | [] => true
  | op :: rest => (!op.isApply || w.redoLog.isNone) && safeOps (Op.step w op) rest

/-! ## Claim C4: undo/redo with no log present -/

/-- C4: an undo with no undo log file fails with the no-history error and
performs no filesystem mutation, and likewise a redo with no redo log. -/
theorem c4_no_history (w : World) :
    (w.undoLog = none → UndoManager.run w = (w, some .noHistory)) ∧
    (w.redoLog = none → RedoManager.run w = (w, some .noHistory)) := by
  constructor
  · intro h
    unfold UndoManager.run
    rw [h]
  · intro h
    unfold RedoManager.run
    rw [h]

/-- Witness for c4_no_history at a concrete clean world. -/
theorem c4_no_history_witness :
    UndoManager.run ⟨⟨[["a"]], []⟩, none, none⟩ =
      (⟨⟨[["a"]], []⟩, none, none⟩, some .noHistory) ∧
    RedoManager.run ⟨⟨[["a"]], []⟩, none, none⟩ =
      (⟨⟨[["a"]], []⟩, none, none⟩, some .noHistory) :=
  ⟨(c4_no_history _).1 rfl, (c4_no_history _).2 rfl⟩

/-! ## Claim C10: the display_plan arity bug in core.py files-mode organize -/

/-- C10: for every non-empty inventory (and any collected responses/flags),
FileOrganizer.organize in core.py reaches the display step and raises a
TypeError - display_plan is called with three arguments but accepts two - so
no confirmation is reached, no plan is applied, and the world is untouched. -/
theorem c10_organize_type_error (inv : List FileEntry)
    (responses : List (List (String × List Member)))
    (dryRun skipConfirmation confirmYes : Bool) (w : World) (h : inv ≠ []) :
    FileOrganizer.organize inv responses dryRun skipConfirmation confirmYes w =
      (w, some .typeError) := by
  obtain ⟨a, t, rfl⟩ := List.exists_cons_of_ne_nil h
  rfl

/-- Witness for c10_organize_type_error on a one-file inventory. -/
theorem c10_organize_type_error_witness :
    FileOrganizer.organize [⟨["a"], ".txt", "hello"⟩]
        [[("Docs", [Member.plainPath ["a"]])]] false true true
        ⟨⟨[["a"]], []⟩, none, none⟩ =
      (⟨⟨[["a"]], []⟩, none, none⟩, some .typeError) :=
  c10_organize_type_error _ _ _ _ _ _ (by decide)

/-! ## Claim C6: the `_standalone` sentinel during apply -/

/-- Helper for C6: the folders applier ignores `_standalone` groups wherever
they occur in the plan. -/
theorem folderExecCats_filter_standalone (plan : FoldersPlan) :
    ∀ fs acc, folderExecCats fs plan acc =
      folderExecCats fs (plan.filter (fun kv => kv.1 != "_standalone")) acc := by
  induction plan with
  | nil => intro fs acc; rfl
  | cons kv rest ih =>
    intro fs acc
    obtain ⟨p, subs⟩ := kv
    by_cases hp : p = "_standalone"
    · subst hp
      have hf : List.filter (fun kv => kv.1 != "_standalone") (("_standalone", subs) :: rest) =
          List.filter (fun kv => kv.1 != "_standalone") rest := by
        simp [List.filter_cons]
      rw [hf]
      conv_lhs => unfold folderExecCats
      rw [if_pos rfl]
      exact ih fs acc
    · have hf : List.filter (fun kv => kv.1 != "_standalone") ((p, subs) :: rest) =
          (p, subs) :: List.filter (fun kv => kv.1 != "_standalone") rest := by
        simp [List.filter_cons, hp]
      rw [hf]
      unfold folderExecCats
      rw [if_neg hp, if_neg hp]
      split
      · rfl
      · split
        · exact ih _ _
        · rfl

/-- C6 (amended): FolderOrganizer.execute_plan skips the `_standalone`
category entirely - applying a plan equals applying the plan with the
sentinel removed, so no `_standalone` directory is created and none of its
members are moved in folders-mode.  (Files-mode apply has no such special
case; see the counterexample.) -/
theorem c6_folders_standalone_skipped (fs : FS) (plan : FoldersPlan) :
    FolderOrganizer.execute_plan fs plan =
      FolderOrganizer.execute_plan fs (plan.filter (fun kv => kv.1 != "_standalone")) :=
  folderExecCats_filter_standalone plan fs []

/-- C6 counterexample: the files-mode applier materializes a `_standalone`
directory and moves its member. -/
theorem c6_files_standalone_materialized :
    (FileOrganizer.execute_plan ⟨[["x"]], []⟩
        [("_standalone", [Member.plainPath ["x"]])]).fs =
      ⟨[["_standalone", "x"]], [["_standalone"]]⟩ ∧
    (FileOrganizer.execute_plan ⟨[["x"]], []⟩
        [("_standalone", [Member.plainPath ["x"]])]).acts =
      [⟨["x"], ["_standalone", "x"]⟩] := by
  exact ⟨by decide, by decide⟩

/-! ## Claim C9: what is persisted when an apply fails partway -/

/-- C9 (amended): when a move fails partway through an apply the exception
propagates before the save step, so no undo log is persisted at all: both
log slots keep their previous contents and the completed moves stay
unrecorded. -/
theorem c9_no_log_on_failed_apply (w : World) (pf : FilesPlan) (pd : FoldersPlan) :
    ((applyFilesPlan w pf).2 ≠ none →
      (applyFilesPlan w pf).1.undoLog = w.undoLog ∧
      (applyFilesPlan w pf).1.redoLog = w.redoLog) ∧
    ((applyFoldersPlan w pd).2 ≠ none →
      (applyFoldersPlan w pd).1.undoLog = w.undoLog ∧
      (applyFoldersPlan w pd).1.redoLog = w.redoLog) := by
  constructor
  · intro h
    unfold applyFilesPlan at *
    cases he : FileOrganizer.execute_plan w.fs pf with
    | mk fs1 acts err =>
      rw [he] at h
      cases err with
      | some e => exact ⟨rfl, rfl⟩
      | none =>
        exfalso
        apply h
        dsimp only
        by_cases ha : acts.isEmpty
        · rw [if_pos ha]
        · rw [if_neg ha]
  · intro h
    unfold applyFoldersPlan at *
    cases he : FolderOrganizer.execute_plan w.fs pd with
    | mk fs1 acts err =>
      rw [he] at h
      cases err with
      | some e => exact ⟨rfl, rfl⟩
      | none =>
        exfalso
        apply h
        dsimp only
        by_cases ha : acts.isEmpty
        · rw [if_pos ha]
        · rw [if_neg ha]

/-- Witness for c9_no_log_on_failed_apply at a failing files-mode apply. -/
theorem c9_no_log_on_failed_apply_witness :
    (applyFilesPlan ⟨⟨[["b"], ["a"], ["D", "a", "a"]], [["D"], ["D", "a"]]⟩, none, none⟩
        [("D", [Member.plainPath ["b"], Member.plainPath ["a"]])]).1.undoLog = none ∧
    (applyFilesPlan ⟨⟨[["b"], ["a"], ["D", "a", "a"]], [["D"], ["D", "a"]]⟩, none, none⟩
        [("D", [Member.plainPath ["b"], Member.plainPath ["a"]])]).1.redoLog = none :=
  ⟨((c9_no_log_on_failed_apply _ _ []).1 (by decide)).1,
   ((c9_no_log_on_failed_apply _ _ []).1 (by decide)).2⟩

/-- C9 counterexample: the second move of this plan fails after the first
completed (the file b was moved to D/b), the apply errors out, and the
persisted undo log is absent instead of listing the completed move. -/
theorem c9_failed_apply_counterexample :
    (applyFilesPlan ⟨⟨[["b"], ["a"], ["D", "a", "a"]], [["D"], ["D", "a"]]⟩, none, none⟩
        [("D", [Member.plainPath ["b"], Member.plainPath ["a"]])]).2 = some .destExists ∧
    (applyFilesPlan ⟨⟨[["b"], ["a"], ["D", "a", "a"]], [["D"], ["D", "a"]]⟩, none, none⟩
        [("D", [Member.plainPath ["b"], Member.plainPath ["a"]])]).1.undoLog = none ∧
    (applyFilesPlan ⟨⟨[["b"], ["a"], ["D", "a", "a"]], [["D"], ["D", "a"]]⟩, none, none⟩
        [("D", [Member.plainPath ["b"], Member.plainPath ["a"]])]).1.fs.files =
      [["D", "b"], ["a"], ["D", "a", "a"]] := by
  exact ⟨by decide, by decide, by decide⟩

/-! ## Claim C3: undo/redo log exclusivity -/

/-- A files-mode apply never touches the redo-log slot. -/
theorem applyFilesPlan_redoLog (w : World) (p : FilesPlan) :
    (applyFilesPlan w p).1.redoLog = w.redoLog := by
  unfold applyFilesPlan
  cases he : FileOrganizer.execute_plan w.fs p with
  | mk fs1 acts err =>
    cases err with
    | some e => rfl
    | none =>
      dsimp only
      by_cases ha : acts.isEmpty
      · rw [if_pos ha]
      · rw [if_neg ha]; rfl

/-- A folders-mode apply never touches the redo-log slot. -/
theorem applyFoldersPlan_redoLog (w : World) (p : FoldersPlan) :
    (applyFoldersPlan w p).1.redoLog = w.redoLog := by
  unfold applyFoldersPlan
  cases he : FolderOrganizer.execute_plan w.fs p with
  | mk fs1 acts err =>
    cases err with
    | some e => rfl
    | none =>
      dsimp only
      by_cases ha : acts.isEmpty
      · rw [if_pos ha]
      · rw [if_neg ha]; rfl

/-- Undo preserves log exclusivity (it either mutates nothing, fails with
the logs untouched, or ends with the undo slot empty). -/
theorem undo_atMostOneLog (w : World) (h : atMostOneLog w) :
    atMostOneLog (UndoManager.run w).1 := by
  unfold UndoManager.run
  cases hu : w.undoLog with
  | none => exact h
  | some acts =>
    have hlogs : ∀ fs', atMostOneLog ⟨fs', some acts, w.redoLog⟩ := by
      intro fs'
      rcases h with hh | hh
      · rw [hu] at hh; exact absurd hh (by simp)
      · exact Or.inr hh
    dsimp only
    cases hr : runMoves undoStep w.fs acts.reverse with
    | mk fs1 e1 =>
      cases e1 with
      | some e => exact hlogs fs1
      | none =>
        dsimp only
        cases hc : undoCleanup fs1 (destParents acts) with
        | mk fs2 e2 =>
          cases e2 with
          | some e => exact hlogs fs2
          | none => exact Or.inl rfl

/-- Redo preserves log exclusivity. -/
theorem redo_atMostOneLog (w : World) (h : atMostOneLog w) :
    atMostOneLog (RedoManager.run w).1 := by
  unfold RedoManager.run
  cases hu : w.redoLog with
  | none => exact h
  | some acts =>
    have hlogs : ∀ fs', atMostOneLog ⟨fs', w.undoLog, some acts⟩ := by
      intro fs'
      rcases h with hh | hh
      · exact Or.inl hh
      · rw [hu] at hh; exact absurd hh (by simp)
    dsimp only
    cases hr : runMoves redoStep w.fs acts with
    | mk fs1 e1 =>
      cases e1 with
      | some e => exact hlogs fs1
      | none => exact Or.inr rfl

/-- C3 (amended): undo and redo each maintain exclusivity of the two log
files, and a fresh apply writes only the undo slot; so along any operation
sequence in which every apply happens while no redo log is present, at most
one of the two log files exists at any time.  (A fresh apply after an undo
violates the invariant: see the counterexample.) -/
theorem c3_exclusivity_for_safe_sequences (w : World) (ops : List Op)
    (h1 : atMostOneLog w) (h2 : safeOps w ops = true) :
    atMostOneLog (runOps w ops) := by
  induction ops generalizing w with
  | nil => exact h1
  | cons op rest ih =>
    unfold safeOps at h2
    rw [Bool.and_eq_true] at h2
    obtain ⟨hop, hrest⟩ := h2
    refine ih (Op.step w op) ?_ hrest
    cases op with
    | applyF p =>
      have hr : w.redoLog = none := by
        simp [Op.isApply] at hop
        exact hop
      exact Or.inr ((applyFilesPlan_redoLog w p).trans hr)
    | applyD p =>
      have hr : w.redoLog = none := by
        simp [Op.isApply] at hop
        exact hop
      exact Or.inr ((applyFoldersPlan_redoLog w p).trans hr)
    | undo => exact undo_atMostOneLog w h1
    | redo => exact redo_atMostOneLog w h1

/-- Witness for c3_exclusivity_for_safe_sequences on a concrete safe
apply-undo-redo sequence. -/
theorem c3_exclusivity_witness :
    atMostOneLog (runOps ⟨⟨[["a"]], []⟩, none, none⟩
      [.applyF [("D", [Member.plainPath ["a"]])], .undo, .redo]) :=
  c3_exclusivity_for_safe_sequences _ _ (Or.inl rfl) (by decide)

/-- C3 counterexample: apply, undo, then a fresh apply leaves BOTH the undo
log and the redo log present - the fresh apply overwrites only the undo slot
and never deletes the stale redo log. -/
theorem c3_both_logs_counterexample :
    (runOps ⟨⟨[["a"]], []⟩, none, none⟩
        [.applyF [("D", [Member.plainPath ["a"]])], .undo,
         .applyF [("D", [Member.plainPath ["a"]])]]).undoLog =
      some [⟨["a"], ["D", "a"]⟩] ∧
    (runOps ⟨⟨[["a"]], []⟩, none, none⟩
        [.applyF [("D", [Member.plainPath ["a"]])], .undo,
         .applyF [("D", [Member.plainPath ["a"]])]]).redoLog =
      some [⟨["a"], ["D", "a"]⟩] := by
  exact ⟨by decide, by decide⟩

/-! ## Claim C5: folders-mode merge invariant -/

/-- Groups surviving the dissolution fold have at least two children
(counted with multiplicity), never contain their own name, and are never the
sentinel. -/
theorem dissolve_foldl_plan_inv (groups : List (String × List String)) :
    ∀ init : FoldersPlan × List String,
      (∀ kv ∈ init.1, 2 ≤ kv.2.length ∧ kv.1 ∉ kv.2 ∧ kv.1 ≠ "_standalone") →
      (∀ kv ∈ groups, kv.1 ≠ "_standalone") →
      ∀ kv ∈ (groups.foldl dissolveStep init).1,
        2 ≤ kv.2.length ∧ kv.1 ∉ kv.2 ∧ kv.1 ≠ "_standalone" := by
  induction groups with
  | nil =>
    intro init h1 h2 kv hkv
    exact h1 kv hkv
  | cons g rest ih =>
    intro init h1 h2 kv hkv
    rw [List.foldl_cons] at hkv
    refine ih (dissolveStep init g) ?_ (fun kv h => h2 kv (List.mem_cons_of_mem _ h)) kv hkv
    intro kv' hkv'
    unfold dissolveStep at hkv'
    by_cases hlen : 2 ≤ (g.2.filter (fun c => c ≠ g.1)).length
    · rw [if_pos hlen] at hkv'
      rcases List.mem_append.mp hkv' with hin | hone
      · exact h1 kv' hin
      · rw [List.mem_singleton] at hone
        subst hone
      
        refine ⟨hlen, ?_, h2 g (List.mem_cons_self _ _)⟩
        intro hmem
        have := List.of_mem_filter hmem
        simp at this
    · rw [if_neg hlen] at hkv'
      exact h1 kv' hkv'

/-- The accumulated standalone list only grows along the fold. -/
theorem dissolve_foldl_standalone_sub (groups : List (String × List String)) :
    ∀ init : FoldersPlan × List String, ∀ c ∈ init.2,
      c ∈ (groups.foldl dissolveStep init).2 := by
  induction groups with
  | nil => intro init c hc; exact hc
  | cons g rest ih =>
    intro init c hc
    rw [List.foldl_cons]
    refine ih _ c ?_
    unfold dissolveStep
    by_cases hlen : 2 ≤ (g.2.filter (fun c => c ≠ g.1)).length
    · rw [if_pos hlen]; exact hc
    · rw [if_neg hlen]; exact List.mem_append_left _ hc

/-- A dissolved group's surviving children end up in the standalone list. -/
theorem dissolve_foldl_standalone_mem (groups : List (String × List String)) :
    ∀ init : FoldersPlan × List String, ∀ g ∈ groups,
      ¬ 2 ≤ (g.2.filter (fun c => c ≠ g.1)).length →
      ∀ c ∈ g.2.filter (fun c => c ≠ g.1),
        c ∈ (groups.foldl dissolveStep init).2 := by
  induction groups with
  | nil => intro init g hg; exact absurd hg (List.not_mem_nil g)
  | cons g' rest ih =>
    intro init g hg hlen c hc
    rw [List.foldl_cons]
    rcases List.mem_cons.mp hg with rfl | hg'
    · refine dissolve_foldl_standalone_sub rest _ c ?_
      unfold dissolveStep
      rw [if_neg hlen]
      exact List.mem_append_right _ hc
    · exact ih _ g hg' hlen c hc

/-- C5 (amended): in the merged folders-mode plan every category other than
`_standalone` has at least two children counted with multiplicity (not
necessarily distinct) and never contains its own name; a dissolved group's
children that differ from the group name are redirected into `_standalone`
(self-named children are silently dropped); and the final `_standalone` list
is deduplicated and sorted. -/
theorem c5_merge_invariant (raw : List (String × List String)) :
    (∀ kv ∈ mergeFolders raw, kv.1 ≠ "_standalone" → 2 ≤ kv.2.length ∧ kv.1 ∉ kv.2) ∧
    (∀ kv ∈ mergeFolders raw, kv.1 = "_standalone" →
      kv.2.Nodup ∧ List.Sorted (· ≤ ·) kv.2) ∧
    (∀ g ∈ raw, g.1 ≠ "_standalone" → (g.2.filter (fun c => c ≠ g.1)).length < 2 →
      ∀ c ∈ g.2.filter (fun c => c ≠ g.1),
        ∃ ms, ("_standalone", ms) ∈ mergeFolders raw ∧ c ∈ ms) := by
  have hgroups : ∀ kv ∈ raw.filter (fun kv => decide (kv.1 ≠ "_standalone")),
      kv.1 ≠ "_standalone" := by
    intro kv hkv
    have := List.of_mem_filter hkv
    simpa using this
  have hinv := dissolve_foldl_plan_inv (raw.filter (fun kv => decide (kv.1 ≠ "_standalone")))
    ([], ((raw.lookup "_standalone").getD [])) (by intro kv h; exact absurd h (List.not_mem_nil kv))
    hgroups
  refine ⟨?_, ?_, ?_⟩
  · intro kv hkv hne
    unfold mergeFolders at hkv
    by_cases hempty :
        ((raw.filter (fun kv => decide (kv.1 ≠ "_standalone"))).foldl dissolveStep
          ([], ((raw.lookup "_standalone").getD []))).2.isEmpty
    · rw [if_pos hempty] at hkv
      exact ⟨(hinv kv hkv).1, (hinv kv hkv).2.1⟩
    · rw [if_neg hempty] at hkv
      rcases List.mem_append.mp hkv with hin | hone
      · exact ⟨(hinv kv hin).1, (hinv kv hin).2.1⟩
      · rw [List.mem_singleton] at hone
        subst hone
        exact absurd rfl hne
  · intro kv hkv hstand
    unfold mergeFolders at hkv
    by_cases hempty :
        ((raw.filter (fun kv => decide (kv.1 ≠ "_standalone"))).foldl dissolveStep
          ([], ((raw.lookup "_standalone").getD []))).2.isEmpty
    · rw [if_pos hempty] at hkv
      exact absurd hstand (hinv kv hkv).2.2
    · rw [if_neg hempty] at hkv
      rcases List.mem_append.mp hkv with hin | hone
      · exact absurd hstand (hinv kv hin).2.2
      · rw [List.mem_singleton] at hone
        subst hone
        constructor
        · exact (List.perm_insertionSort _ _).nodup_iff.mpr (List.nodup_dedup _)
        · exact List.sorted_insertionSort _ _
  · intro g hg hgne hlt c hc
    have hgmem : g ∈ raw.filter (fun kv => decide (kv.1 ≠ "_standalone")) :=
      List.mem_filter.mpr ⟨hg, by simpa using hgne⟩
    have hcmem := dissolve_foldl_standalone_mem
      (raw.filter (fun kv => decide (kv.1 ≠ "_standalone")))
      ([], ((raw.lookup "_standalone").getD [])) g hgmem (by omega) c hc
    have hnonempty :
        ¬ ((raw.filter (fun kv => decide (kv.1 ≠ "_standalone"))).foldl dissolveStep
          ([], ((raw.lookup "_standalone").getD []))).2.isEmpty := by
      intro habs
      rw [List.isEmpty_iff] at habs
      rw [habs] at hcmem
      exact absurd hcmem (List.not_mem_nil c)
    refine ⟨sortDedup
      ((raw.filter (fun kv => decide (kv.1 ≠ "_standalone"))).foldl dissolveStep
        ([], ((raw.lookup "_standalone").getD []))).2, ?_, ?_⟩
    · unfold mergeFolders
      rw [if_neg hnonempty]
      exact List.mem_append_right _ (List.mem_singleton.mpr rfl)
    · unfold sortDedup
      rw [(List.perm_insertionSort _ _).mem_iff, List.mem_dedup]
      exact hcmem

/-- C5 counterexample: a group whose two children are the same name survives
the merge, so a non-sentinel category can have a single distinct child. -/
theorem c5_distinct_counterexample :
    ("B", ["A", "A"]) ∈ mergeFolders [("B", ["A", "A"])] ∧
    ((["A", "A"] : List String).dedup).length = 1 := by
  exact ⟨by decide, by decide⟩

/-! ## Claim C8: files-mode batch merging -/

/-- A successful lookup points at an entry of the association list. -/
theorem lookup_mem {β : Type} (l : List (String × β)) (c : String) (v : β)
    (h : l.lookup c = some v) : (c, v) ∈ l := by
  induction l with
  | nil => simp [List.lookup] at h
  | cons x xs ih =>
    rw [List.lookup] at h
    split at h
    · next heq =>
      simp at heq
      cases h
      subst heq
      simp
    · right; exact ih h

/-- A failed lookup means no entry carries the key. -/
theorem lookup_none_keys {β : Type} (l : List (String × β)) (c : String)
    (h : l.lookup c = none) : ∀ kv ∈ l, kv.1 ≠ c := by
  induction l with
  | nil => intro kv hkv; exact absurd hkv (List.not_mem_nil kv)
  | cons x xs ih =>
    rw [List.lookup] at h
    intro kv hkv
    split at h
    · exact absurd h (by simp)
    · next hne =>
      rcases List.mem_cons.mp hkv with rfl | hmem
      · simp at hne
        exact fun hc => hne hc.symm
      · exact ih h kv hmem

/-- With duplicate-free keys, lookup recovers each entry's value. -/
theorem keysNodup_lookup {β : Type} (l : List (String × β))
    (h : (l.map Prod.fst).Nodup) : ∀ kv ∈ l, l.lookup kv.1 = some kv.2 := by
  induction l with
  | nil => intro kv hkv; exact absurd hkv (List.not_mem_nil kv)
  | cons x xs ih =>
    rw [List.map_cons, List.nodup_cons] at h
    intro kv hkv
    rcases List.mem_cons.mp hkv with rfl | hmem
    · rw [List.lookup]
      simp
    · rw [List.lookup]
      have hne : (kv.1 == x.1) = false := by
        rw [beq_eq_false_iff_ne]
        intro hc
        exact h.1 (hc ▸ List.mem_map_of_mem Prod.fst hmem)
      rw [hne]
      exact ih h.2 kv hmem

/-- Membership of a path-bearing raw entry in a plan's category. -/
def planMem (plan : List (String × List Member)) (cat : String) (m : Member) : Prop :=
  ∃ ms, (cat, ms) ∈ plan ∧ m ∈ ms

/-- What one merged category contributes: old members survive, and a new
member lands exactly when it came from the incoming batch entry. -/
theorem planMem_planMerge1 (plan : List (String × List Member)) (cat : String)
    (new : List Member) (c : String) (m : Member) :
    planMem (planMerge1 plan cat new) c m ↔
      planMem plan c m ∨ (c = cat ∧ m ∈ new) := by
  unfold planMerge1
  cases hl : plan.lookup cat with
  | none =>
    constructor
    · rintro ⟨ms, hmem, hm⟩
      rcases List.mem_append.mp hmem with hin | hone
      · exact Or.inl ⟨ms, hin, hm⟩
      · rw [List.mem_singleton, Prod.mk.injEq] at hone
        exact Or.inr ⟨hone.1, hone.2 ▸ hm⟩
    · rintro (⟨ms, hmem, hm⟩ | ⟨rfl, hm⟩)
      · exact ⟨ms, List.mem_append_left _ hmem, hm⟩
      · exact ⟨new, List.mem_append_right _ (List.mem_singleton.mpr rfl), hm⟩
  | some cur =>
    constructor
    · rintro ⟨ms, hmem, hm⟩
      obtain ⟨kv, hkv, heq⟩ := List.mem_map.mp hmem
      by_cases hc : kv.1 = cat
      · rw [if_pos hc, Prod.mk.injEq] at heq
        rcases List.mem_append.mp (heq.2 ▸ hm) with hold | hadd
        · exact Or.inl ⟨kv.2, by rw [← heq.1]; exact (by simpa using hkv), hold⟩
        · exact Or.inr ⟨heq.1 ▸ hc, (List.mem_filter.mp hadd).1⟩
      · rw [if_neg hc] at heq
        exact Or.inl ⟨ms, heq ▸ hkv, hm⟩
    · rintro (⟨ms, hmem, hm⟩ | ⟨rfl, hm⟩)
      · by_cases hc : c = cat
        · refine ⟨ms ++ new.filter (fun f => !cur.contains f), ?_, List.mem_append_left _ hm⟩
          have := List.mem_map_of_mem
            (fun kv : String × List Member =>
              if kv.1 = cat then (kv.1, kv.2 ++ new.filter (fun f => !cur.contains f)) else kv)
            hmem
          simpa [hc] using this
        · refine ⟨ms, ?_, hm⟩
          have := List.mem_map_of_mem
            (fun kv : String × List Member =>
              if kv.1 = cat then (kv.1, kv.2 ++ new.filter (fun f => !cur.contains f)) else kv)
            hmem
          simpa [hc] using this
      · have hcur := lookup_mem plan c cur hl
        refine ⟨cur ++ new.filter (fun f => !cur.contains f), ?_, ?_⟩
        · have := List.mem_map_of_mem
            (fun kv : String × List Member =>
              if kv.1 = c then (kv.1, kv.2 ++ new.filter (fun f => !cur.contains f)) else kv)
            hcur
          simpa using this
        · by_cases hmc : m ∈ cur
          · exact List.mem_append_left _ hmc
          · refine List.mem_append_right _ (List.mem_filter.mpr ⟨hm, ?_⟩)
            simpa using hmc

/-- Merging one category keeps association keys duplicate-free. -/
theorem planMerge1_keysNodup (plan : List (String × List Member)) (cat : String)
    (new : List Member) (h : (plan.map Prod.fst).Nodup) :
    ((planMerge1 plan cat new).map Prod.fst).Nodup := by
  unfold planMerge1
  cases hl : plan.lookup cat with
  | none =>
    rw [List.map_append]
    refine (List.nodup_append).mpr ⟨h, List.nodup_singleton _, ?_⟩
    intro k hk hk1
    simp at hk1
    obtain ⟨kv, hkv, hfst⟩ := List.mem_map.mp hk
    exact lookup_none_keys plan cat hl kv hkv (hk1 ▸ hfst)
  | some cur =>
    have : (plan.map (fun kv =>
        if kv.1 = cat then (kv.1, kv.2 ++ new.filter (fun f => !cur.contains f)) else kv)).map
          Prod.fst = plan.map Prod.fst := by
      rw [List.map_map]
      refine List.map_congr_left ?_
      intro kv hkv
      by_cases hc : kv.1 = cat
      · simp [hc]
      · simp [hc]
    rw [this]
    exact h

/-- Merging one duplicate-free batch entry keeps every category list
duplicate-free (keys must be duplicate-free so that the filtered additions
are checked against the right current list). -/
theorem planMerge1_valsNodup (plan : List (String × List Member)) (cat : String)
    (new : List Member) (hkeys : (plan.map Prod.fst).Nodup)
    (hvals : ∀ kv ∈ plan, kv.2.Nodup) (hnew : new.Nodup) :
    ∀ kv ∈ planMerge1 plan cat new, kv.2.Nodup := by
  unfold planMerge1
  cases hl : plan.lookup cat with
  | none =>
    intro kv hkv
    rcases List.mem_append.mp hkv with hin | hone
    · exact hvals kv hin
    · rw [List.mem_singleton] at hone
      subst hone
      exact hnew
  | some cur =>
    intro kv' hkv'
    obtain ⟨kv, hkv, heq⟩ := List.mem_map.mp hkv'
    by_cases hc : kv.1 = cat
    · rw [if_pos hc] at heq
      have hkv2 : kv.2 = cur := by
        have := keysNodup_lookup plan hkeys kv hkv
        rw [hc, hl] at this
        exact (Option.some.inj this).symm
      subst heq
      refine List.Nodup.append (hvals kv hkv) (hnew.filter _) ?_
      intro a ha hafilter
      have := (List.mem_filter.mp hafilter).2
      rw [hkv2] at ha
      simp at this
      exact this ha
    · rw [if_neg hc] at heq
      subst heq
      exact hvals kv hkv

/-- Merging one whole batch response preserves both key and per-category
duplicate-freedom. -/
theorem mergeBatchResponse_nodup (resp : List (String × List Member)) :
    ∀ plan, (plan.map Prod.fst).Nodup → (∀ kv ∈ plan, kv.2.Nodup) →
      (∀ kv ∈ resp, kv.2.Nodup) →
      ((mergeBatchResponse plan resp).map Prod.fst).Nodup ∧
        ∀ kv ∈ mergeBatchResponse plan resp, kv.2.Nodup := by
  induction resp with
  | nil => intro plan h1 h2 h3; exact ⟨h1, h2⟩
  | cons x xs ih =>
    intro plan h1 h2 h3
    unfold mergeBatchResponse
    rw [List.foldl_cons]
    exact ih (planMerge1 plan x.1 x.2)
      (planMerge1_keysNodup plan x.1 x.2 h1)
      (planMerge1_valsNodup plan x.1 x.2 h1 h2 (h3 x (List.mem_cons_self _ _)))
      (fun kv h => h3 kv (List.mem_cons_of_mem _ h))

/-- A member is in a merged batch exactly when it was already merged or came
from the batch. -/
theorem planMem_mergeBatchResponse (resp : List (String × List Member)) :
    ∀ plan c m, planMem (mergeBatchResponse plan resp) c m ↔
      planMem plan c m ∨ planMem resp c m := by
  induction resp with
  | nil =>
    intro plan c m
    unfold mergeBatchResponse
    rw [List.foldl_nil]
    unfold planMem
    simp
  | cons x xs ih =>
    intro plan c m
    unfold mergeBatchResponse at *
    rw [List.foldl_cons]
    rw [ih (planMerge1 plan x.1 x.2) c m, planMem_planMerge1]
    constructor
    · rintro ((h | ⟨rfl, hm⟩) | h)
      · exact Or.inl h
      · exact Or.inr ⟨x.2, by simp, hm⟩
      · obtain ⟨ms, hmem, hm⟩ := h
        exact Or.inr ⟨ms, List.mem_cons_of_mem _ hmem, hm⟩
    · rintro (h | ⟨ms, hmem, hm⟩)
      · exact Or.inl (Or.inl h)
      · rcases List.mem_cons.mp hmem with heq | hmem'
        · rw [Prod.ext_iff] at heq
          exact Or.inl (Or.inr ⟨heq.1, heq.2 ▸ hm⟩)
        · exact Or.inr ⟨ms, hmem', hm⟩

/-- final_plan.get(category, []): the category's current merged list. -/
def lookupList (plan : List (String × List Member)) (c : String) : List Member :=
  match plan.lookup c with
  | some v => v
  | none => []

/-- Transcribed from the claim: a category's merged content accumulated in
insertion order - each contribution for the category is appended after the
filter against the members already present, so earlier entries keep their
positions and new entries are appended in their batch's order. -/
def specMergedCat (c : String) : List (String × List Member) → List Member → List Member
  | [], cur => cur
  | kv :: rest, cur =>
    if kv.1 = c then
      specMergedCat c rest (cur ++ kv.2.filter (fun f => !cur.contains f))
    else specMergedCat c rest cur

/-- Lookup ignores a right extension when the key is found on the left. -/
theorem lookup_append_left {β : Type} (l₁ l₂ : List (String × β)) (c : String) (v : β)
    (h : l₁.lookup c = some v) : (l₁ ++ l₂).lookup c = some v := by
  induction l₁ with
  | nil => simp [List.lookup] at h
  | cons kv rest ih =>
    obtain ⟨k, b⟩ := kv
    rw [List.cons_append]
    cases hck : c == k with
    | true =>
      simp only [List.lookup_cons, hck] at h ⊢
      exact h
    | false =>
      simp only [List.lookup_cons, hck] at h ⊢
      exact ih h

/-- Lookup falls through to the right part when the key is absent left. -/
theorem lookup_append_none_left {β : Type} (l₁ l₂ : List (String × β)) (c : String)
    (h : l₁.lookup c = none) : (l₁ ++ l₂).lookup c = l₂.lookup c := by
  induction l₁ with
  | nil => rfl
  | cons kv rest ih =>
    obtain ⟨k, b⟩ := kv
    rw [List.cons_append]
    cases hck : c == k with
    | true =>
      simp only [List.lookup_cons, hck] at h
      exact Option.noConfusion h
    | false =>
      simp only [List.lookup_cons, hck] at h ⊢
      exact ih h

/-- Looking up the updated category after the merge's map step. -/
theorem lookup_map_append (plan : List (String × List Member)) (cat : String)
    (add : List Member) (cur : List Member) (h : plan.lookup cat = some cur) :
    (plan.map (fun kv => if kv.1 = cat then (kv.1, kv.2 ++ add) else kv)).lookup cat =
      some (cur ++ add) := by
  induction plan with
  | nil => simp [List.lookup] at h
  | cons kv rest ih =>
    obtain ⟨k, b⟩ := kv
    rw [List.map_cons]
    by_cases hk : k = cat
    · have hck : (cat == k) = true := by
        rw [hk]
        exact beq_self_eq_true cat
      simp only [List.lookup_cons, hck] at h
      dsimp only
      rw [if_pos hk]
      simp only [List.lookup_cons, hck]
      rw [Option.some.inj h]
    · have hck : (cat == k) = false := by
        rw [beq_eq_false_iff_ne]
        exact fun hc => hk hc.symm
      simp only [List.lookup_cons, hck] at h
      dsimp only
      rw [if_neg hk]
      simp only [List.lookup_cons, hck]
      exact ih h

/-- The merge's map step leaves every other category's lookup unchanged. -/
theorem lookup_map_append_ne (plan : List (String × List Member)) (cat c : String)
    (add : List Member) (hne : c ≠ cat) :
    (plan.map (fun kv => if kv.1 = cat then (kv.1, kv.2 ++ add) else kv)).lookup c =
      plan.lookup c := by
  induction plan with
  | nil => rfl
  | cons kv rest ih =>
    obtain ⟨k, b⟩ := kv
    rw [List.map_cons]
    by_cases hk : k = cat
    · have hck : (c == k) = false := by
        rw [beq_eq_false_iff_ne, hk]
        exact hne
      dsimp only
      rw [if_pos hk]
      simp only [List.lookup_cons, hck]
      exact ih
    · dsimp only
      rw [if_neg hk]
      cases hck : c == k with
      | true => simp only [List.lookup_cons, hck]
      | false =>
        simp only [List.lookup_cons, hck]
        exact ih

/-- One planMerge1 step on a category's content, seen through lookup. -/
theorem lookupList_planMerge1 (plan : List (String × List Member)) (cat : String)
    (new : List Member) (c : String) :
    lookupList (planMerge1 plan cat new) c =
      if cat = c then
        lookupList plan c ++ new.filter (fun f => !(lookupList plan c).contains f)
      else lookupList plan c := by
  unfold planMerge1
  cases hl : plan.lookup cat with
  | some cur =>
    dsimp only
    by_cases hc : cat = c
    · subst hc
      rw [if_pos rfl]
      unfold lookupList
      rw [lookup_map_append plan cat _ cur hl, hl]
    · rw [if_neg hc]
      unfold lookupList
      rw [lookup_map_append_ne plan cat c _ (fun h => hc h.symm)]
  | none =>
    by_cases hc : cat = c
    · subst hc
      rw [if_pos rfl]
      unfold lookupList
      rw [lookup_append_none_left plan _ cat hl, hl]
      have hck : (cat == cat) = true := beq_self_eq_true cat
      simp only [List.lookup_cons, hck]
      have hfil : List.filter (fun f => !List.contains ([] : List Member) f) new = new :=
        List.filter_eq_self.mpr (fun a _ => rfl)
      rw [List.nil_append, hfil]
    · rw [if_neg hc]
      unfold lookupList
      cases hv : plan.lookup c with
      | some v => rw [lookup_append_left plan _ c v hv]
      | none =>
        rw [lookup_append_none_left plan _ c hv]
        have hck : (c == cat) = false := by
          rw [beq_eq_false_iff_ne]
          exact fun h => hc h.symm
        simp only [List.lookup_cons, hck, List.lookup_nil]

/-- One batch's merge accumulates each category in insertion order. -/
theorem lookupList_mergeBatchResponse (resp : List (String × List Member)) :
    ∀ plan c, lookupList (mergeBatchResponse plan resp) c =
      specMergedCat c resp (lookupList plan c) := by
  induction resp with
  | nil => intro plan c; rfl
  | cons kv rest ih =>
    intro plan c
    rw [show mergeBatchResponse plan (kv :: rest) =
        mergeBatchResponse (planMerge1 plan kv.1 kv.2) rest from rfl]
    rw [ih]
    rw [show specMergedCat c (kv :: rest) (lookupList plan c) =
        (if kv.1 = c then specMergedCat c rest (lookupList plan c ++
          kv.2.filter (fun f => !(lookupList plan c).contains f))
        else specMergedCat c rest (lookupList plan c)) from rfl]
    rw [lookupList_planMerge1]
    by_cases hk : kv.1 = c
    · rw [if_pos hk, if_pos hk]
    · rw [if_neg hk, if_neg hk]

/-- The accumulated per-category content splits over concatenation. -/
theorem specMergedCat_append (c : String) (l₁ l₂ : List (String × List Member)) :
    ∀ cur, specMergedCat c (l₁ ++ l₂) cur = specMergedCat c l₂ (specMergedCat c l₁ cur) := by
  induction l₁ with
  | nil => intro cur; rfl
  | cons kv rest ih =>
    intro cur
    rw [List.cons_append]
    rw [show specMergedCat c (kv :: (rest ++ l₂)) cur =
        (if kv.1 = c then specMergedCat c (rest ++ l₂)
          (cur ++ kv.2.filter (fun f => !cur.contains f))
        else specMergedCat c (rest ++ l₂) cur) from rfl]
    rw [show specMergedCat c (kv :: rest) cur =
        (if kv.1 = c then specMergedCat c rest (cur ++ kv.2.filter (fun f => !cur.contains f))
        else specMergedCat c rest cur) from rfl]
    by_cases hk : kv.1 = c
    · rw [if_pos hk, if_pos hk, ih]
    · rw [if_neg hk, if_neg hk, ih]

/-- The whole merge accumulates each category in insertion order over the
concatenation of the batches' pair lists. -/
theorem lookupList_mergeFileBatches (resps : List (List (String × List Member))) (c : String) :
    lookupList (mergeFileBatches resps) c = specMergedCat c resps.flatten [] := by
  unfold mergeFileBatches
  have main : ∀ (rs : List (List (String × List Member))) (plan : List (String × List Member)),
      lookupList (rs.foldl mergeBatchResponse plan) c =
        specMergedCat c rs.flatten (lookupList plan c) := by
    intro rs
    induction rs with
    | nil => intro plan; rfl
    | cons r rest ih =>
      intro plan
      rw [List.foldl_cons, ih, lookupList_mergeBatchResponse]
      rw [show (r :: rest).flatten = r ++ rest.flatten from rfl]
      rw [specMergedCat_append]
  rw [main resps []]
  rfl

/-- C8 (amended): the merged files-mode plan is the union of the batches'
organization_plan maps; each category's merged list is exactly the
insertion-order accumulation of the batches' contributions, each filtered
only against the members already merged from earlier content (so duplicates
inside one batch's list survive and order is preserved); given each batch's
per-category lists are duplicate-free, every merged category list is
duplicate-free. -/
theorem c8_merge_union_dedup (resps : List (List (String × List Member))) :
    (∀ c m, planMem (mergeFileBatches resps) c m ↔ ∃ resp ∈ resps, planMem resp c m) ∧
    (∀ c, lookupList (mergeFileBatches resps) c = specMergedCat c resps.flatten []) ∧
    ((∀ resp ∈ resps, ∀ kv ∈ resp, kv.2.Nodup) →
      ∀ kv ∈ mergeFileBatches resps, kv.2.Nodup) := by
  refine ⟨?_, fun c => lookupList_mergeFileBatches resps c, ?_⟩
  · intro c m
    unfold mergeFileBatches
    have main : ∀ (rs : List (List (String × List Member))) (plan : List (String × List Member)),
        planMem (rs.foldl mergeBatchResponse plan) c m ↔
          planMem plan c m ∨ ∃ resp ∈ rs, planMem resp c m := by
      intro rs
      induction rs with
      | nil => intro plan; simp
      | cons x xs ih =>
        intro plan
        rw [List.foldl_cons, ih, planMem_mergeBatchResponse]
        constructor
        · rintro ((h | h) | ⟨resp, hresp, h⟩)
          · exact Or.inl h
          · exact Or.inr ⟨x, by simp, h⟩
          · exact Or.inr ⟨resp, List.mem_cons_of_mem _ hresp, h⟩
        · rintro (h | ⟨resp, hresp, h⟩)
          · exact Or.inl (Or.inl h)
          · rcases List.mem_cons.mp hresp with rfl | hmem'
            · exact Or.inl (Or.inr h)
            · exact Or.inr ⟨resp, hmem', h⟩
    rw [main resps []]
    unfold planMem
    simp
  · intro hbatches
    unfold mergeFileBatches
    have main : ∀ (rs : List (List (String × List Member))) (plan : List (String × List Member)),
        (plan.map Prod.fst).Nodup → (∀ kv ∈ plan, kv.2.Nodup) →
        (∀ resp ∈ rs, ∀ kv ∈ resp, kv.2.Nodup) →
        ∀ kv ∈ rs.foldl mergeBatchResponse plan, kv.2.Nodup := by
      intro rs
      induction rs with
      | nil => intro plan h1 h2 h3; exact h2
      | cons x xs ih =>
        intro plan h1 h2 h3
        rw [List.foldl_cons]
        have step := mergeBatchResponse_nodup x plan h1 h2 (h3 x (List.mem_cons_self _ _))
        exact ih (mergeBatchResponse plan x) step.1 step.2
          (fun resp h => h3 resp (List.mem_cons_of_mem _ h))
    exact main resps [] (by simp) (by simp) hbatches

/-- Witness for c8_merge_union_dedup: the hypothesis side discharged on a
concrete two-batch run. -/
theorem c8_merge_union_dedup_witness :
    ([Member.plainPath ["a"], Member.plainPath ["b"]] : List Member).Nodup :=
  (c8_merge_union_dedup
      [[("D", [Member.plainPath ["a"]])], [("D", [Member.plainPath ["b"], Member.plainPath ["a"]])]]).2.2
    (by decide) ("D", [Member.plainPath ["a"], Member.plainPath ["b"]]) (by decide)

/-- C8 counterexample: a single batch response whose category list repeats a
path is merged verbatim, so the final category list has duplicate paths. -/
theorem c8_inbatch_duplicate_counterexample :
    mergeFileBatches [[("D", [Member.plainPath ["a"], Member.plainPath ["a"]])]] =
      [("D", [Member.plainPath ["a"], Member.plainPath ["a"]])] ∧
    ¬ ([Member.plainPath ["a"], Member.plainPath ["a"]] : List Member).Nodup := by
  exact ⟨by decide, by decide⟩

/-! ## Claim C7: files-mode apply member processing -/

/-- Transcribed from the claim: one member's processing.  The destination is
category/basename(source); a source missing at this point in the apply is
skipped silently with no undo action; otherwise {source, dest} is recorded
and the move performed. -/
def specFileMember (cat : String) (fs : FS) (m : Member) :
    FS × List UndoAction × Option FsErr :=
  if fs.existsPath m.path then
    match fs.move m.path [cat, basename m.path] with
    | .ok fs' => (fs', [⟨m.path, [cat, basename m.path]⟩], none)
    | .error e => (fs, [⟨m.path, [cat, basename m.path]⟩], some e)
  else (fs, [], none)

/-- Transcribed from the claim: process the elements in order and return the
concatenation of their recorded actions, so the result list preserves the
iteration order. -/
def specSeq {α : Type} (step : FS → α → FS × List UndoAction × Option FsErr) :
    FS → List α → FS × List UndoAction × Option FsErr
  | fs, [] => (fs, [], none)
  | fs, x :: xs =>
    match step fs x with
    | (fs1, as1, none) =>
      match specSeq step fs1 xs with
      | (fs2, as2, e) => (fs2, as1 ++ as2, e)
    | (fs1, as1, some e) => (fs1, as1, some e)

/-- Transcribed from the claim's context (spec section 4.4): one category -
create the destination directory, then process its members in order. -/
def specFileCat (fs : FS) (kv : String × List Member) :
    FS × List UndoAction × Option FsErr :=
  match fs.mkdirs [kv.1] with
  | .error e => (fs, [], some e)
  | .ok fs1 => specSeq (specFileMember kv.1) fs1 kv.2

/-- The claim-side files-mode apply: category order, then member order. -/
def specExecuteFiles (fs : FS) (plan : FilesPlan) :
    FS × List UndoAction × Option FsErr :=
  specSeq specFileCat fs plan

/-- One-step unfolding of the claim-side sequencing. -/
theorem specSeq_cons {α : Type} (step : FS → α → FS × List UndoAction × Option FsErr)
    (fs : FS) (x : α) (xs : List α) :
    specSeq step fs (x :: xs) =
      match step fs x with
      | (fs1, as1, none) =>
        match specSeq step fs1 xs with
        | (fs2, as2, e) => (fs2, as1 ++ as2, e)
      | (fs1, as1, some e) => (fs1, as1, some e) := rfl

/-- The accumulator-threading inner loop of the code equals the claim's
concatenation form, category fixed. -/
theorem fileMoveItems_spec (cat : String) (items : List Member) :
    ∀ fs acc, fileMoveItems fs cat items acc =
      ⟨(specSeq (specFileMember cat) fs items).1,
       acc ++ (specSeq (specFileMember cat) fs items).2.1,
       (specSeq (specFileMember cat) fs items).2.2⟩ := by
  induction items with
  | nil =>
    intro fs acc
    unfold fileMoveItems specSeq
    simp
  | cons m rest ih =>
    intro fs acc
    unfold fileMoveItems
    rw [specSeq_cons]
    by_cases hex : fs.existsPath m.path
    · rw [if_pos hex]
      cases hm : fs.move m.path [cat, basename m.path] with
      | ok fs' =>
        have hstep : specFileMember cat fs m =
            (fs', [⟨m.path, [cat, basename m.path]⟩], none) := by
          unfold specFileMember
          rw [if_pos hex, hm]
        rw [hstep]
        dsimp only
        rw [ih]
        cases hs : specSeq (specFileMember cat) fs' rest with
        | mk fs2 rest2 =>
          cases rest2 with
          | mk as2 e2 => simp
      | error e =>
        have hstep : specFileMember cat fs m =
            (fs, [⟨m.path, [cat, basename m.path]⟩], some e) := by
          unfold specFileMember
          rw [if_pos hex, hm]
        rw [hstep]
    · rw [if_neg hex]
      have hstep : specFileMember cat fs m = (fs, [], none) := by
        unfold specFileMember
        rw [if_neg hex]
      rw [hstep]
      dsimp only
      rw [ih]
      cases hs : specSeq (specFileMember cat) fs rest with
      | mk fs2 rest2 =>
        cases rest2 with
        | mk as2 e2 => simp

/-- The accumulator-threading outer loop of the code equals the claim's
concatenation form. -/
theorem fileExecCats_spec (plan : FilesPlan) :
    ∀ fs acc, fileExecCats fs plan acc =
      ⟨(specSeq specFileCat fs plan).1,
       acc ++ (specSeq specFileCat fs plan).2.1,
       (specSeq specFileCat fs plan).2.2⟩ := by
  induction plan with
  | nil =>
    intro fs acc
    unfold fileExecCats specSeq
    simp
  | cons kv rest ih =>
    intro fs acc
    obtain ⟨cat, items⟩ := kv
    unfold fileExecCats
    rw [specSeq_cons]
    cases hk : fs.mkdirs [cat] with
    | error e =>
      have hstep : specFileCat fs (cat, items) = (fs, [], some e) := by
        unfold specFileCat
        rw [hk]
      rw [hstep]
      simp
    | ok fs1 =>
      have hstep : specFileCat fs (cat, items) = specSeq (specFileMember cat) fs1 items := by
        unfold specFileCat
        rw [hk]
      rw [hstep]
      dsimp only
      rw [fileMoveItems_spec cat items fs1 acc]
      cases hs : specSeq (specFileMember cat) fs1 items with
      | mk fsm restm =>
        cases restm with
        | mk asm em =>
          cases em with
          | some e => simp
          | none =>
            dsimp only
            rw [ih]
            cases hr : specSeq specFileCat fsm rest with
            | mk fsr restr =>
              cases restr with
              | mk asr er => simp

/-- C7: FileOrganizer.execute_plan implements exactly the claim's member
processing - destination category/basename(source), silent skip of vanished
sources with no recorded action, otherwise move plus appended
{source, dest} - and its returned action list is the concatenation, in plan
iteration order (category order, then member order), of the per-member
records. -/
theorem c7_files_member_processing (fs : FS) (plan : FilesPlan) :
    FileOrganizer.execute_plan fs plan =
      ⟨(specExecuteFiles fs plan).1, (specExecuteFiles fs plan).2.1,
       (specExecuteFiles fs plan).2.2⟩ := by
  unfold FileOrganizer.execute_plan specExecuteFiles
  rw [fileExecCats_spec plan fs []]
  simp

/-! ## Claim C2: what one undo run does -/

/-- Transcribed from the claim: restore one logged action - recreate the
intermediate directories for `source`, then move dest → source when the
moved entry is still present. -/
def specUndoMove (fs : FS) (a : UndoAction) : FS × Option FsErr :=
  match fs.mkdirs (parentDir a.source) with
  | .error e => (fs, some e)
  | .ok fs1 =>
    if fs1.existsPath a.dest then
      match fs1.move a.dest a.source with
      | .ok fs2 => (fs2, none)
      | .error e => (fs1, some e)
    else (fs1, none)

/-- Transcribed from the claim: replay the logged actions in reverse order -
all actions after the head are undone first, the head last. -/
def specUndoReplay : FS → List UndoAction → FS × Option FsErr
  | fs, [] => (fs, none)
  | fs, a :: rest =>
    match specUndoReplay fs rest with
    | (fs1, none) => specUndoMove fs1 a
    | r => r

/-- Transcribed from the claim: remove a destination-parent directory when
it is now empty (best effort, no error). -/
def specCleanup1 (fs : FS) (p : RelPath) : FS :=
  if fs.isDir p && fs.dirEmpty p then { fs with dirs := fs.dirs.erase p } else fs

/-- Claim-side cleanup over the distinct destination parents. -/
def specCleanup (fs : FS) (ps : List RelPath) : FS := ps.foldl specCleanup1 fs

/-- Claim-side undo: requires a log, replays it in reverse, cleans up the
now-empty destination parents, and hands the consumed log to the redo slot
so that no undo log remains. -/
def specUndoRun (w : World) : Option World :=
  match w.undoLog with
  | none => none
  | some acts =>
    match specUndoReplay w.fs acts with
    | (fs1, none) => some ⟨specCleanup fs1 (destParents acts), none, some acts⟩
    | _ => none

/-- Running moves over an appended list continues when the first part
succeeded. -/
theorem runMoves_append_ok (step : FS → UndoAction → FS × Option FsErr)
    (l1 l2 : List UndoAction) : ∀ fs fs1, runMoves step fs l1 = (fs1, none) →
      runMoves step fs (l1 ++ l2) = runMoves step fs1 l2 := by
  induction l1 with
  | nil =>
    intro fs fs1 h
    unfold runMoves at h
    cases h
    rfl
  | cons a rest ih =>
    intro fs fs1 h
    unfold runMoves at h
    rw [show (a :: rest) ++ l2 = a :: (rest ++ l2) from rfl,
      show runMoves step fs (a :: (rest ++ l2)) =
        match step fs a with
        | (fs', none) => runMoves step fs' (rest ++ l2)
        | (fs', some e) => (fs', some e) from rfl]
    cases hs : step fs a with
    | mk fs' e =>
      rw [hs] at h
      cases e with
      | none =>
        dsimp only at h ⊢
        exact ih fs' fs1 h
      | some e =>
        dsimp only at h
        simp at h

/-- Running moves over an appended list stops when the first part failed. -/
theorem runMoves_append_err (step : FS → UndoAction → FS × Option FsErr)
    (l1 l2 : List UndoAction) : ∀ fs fs1 e, runMoves step fs l1 = (fs1, some e) →
      runMoves step fs (l1 ++ l2) = (fs1, some e) := by
  induction l1 with
  | nil =>
    intro fs fs1 e h
    unfold runMoves at h
    simp at h
  | cons a rest ih =>
    intro fs fs1 e h
    unfold runMoves at h
    rw [show (a :: rest) ++ l2 = a :: (rest ++ l2) from rfl,
      show runMoves step fs (a :: (rest ++ l2)) =
        match step fs a with
        | (fs', none) => runMoves step fs' (rest ++ l2)
        | (fs', some e) => (fs', some e) from rfl]
    cases hs : step fs a with
    | mk fs' e' =>
      rw [hs] at h
      cases e' with
      | none =>
        dsimp only at h ⊢
        exact ih fs' fs1 e h
      | some e' =>
        dsimp only at h ⊢
        exact h

/-- A single move step. -/
theorem runMoves_single (step : FS → UndoAction → FS × Option FsErr)
    (fs : FS) (a : UndoAction) : runMoves step fs [a] = step fs a := by
  unfold runMoves
  cases hs : step fs a with
  | mk fs' e =>
    cases e with
    | none => rfl
    | some e => rfl

/-- The code's reversed iteration over the log equals the claim-side
last-action-first recursion. -/
theorem runMoves_reverse_eq_specUndoReplay (acts : List UndoAction) :
    ∀ fs, runMoves undoStep fs acts.reverse = specUndoReplay fs acts := by
  induction acts with
  | nil => intro fs; rfl
  | cons a rest ih =>
    intro fs
    rw [List.reverse_cons]
    cases hs : specUndoReplay fs rest with
    | mk fs1 e =>
      have hrm : runMoves undoStep fs rest.reverse = (fs1, e) := by rw [ih fs]; exact hs
      cases e with
      | none =>
        rw [runMoves_append_ok undoStep rest.reverse [a] fs fs1 hrm, runMoves_single]
        show _ = specUndoReplay fs (a :: rest)
        unfold specUndoReplay
        rw [hs]
        rfl
      | some e =>
        rw [runMoves_append_err undoStep rest.reverse [a] fs fs1 e hrm]
        show _ = specUndoReplay fs (a :: rest)
        unfold specUndoReplay
        rw [hs]

/-- On success the code's guarded cleanup equals the claim-side best-effort
removal of now-empty directories. -/
theorem undoCleanup_eq_specCleanup (ps : List RelPath) :
    ∀ fs fs', undoCleanup fs ps = (fs', none) → specCleanup fs ps = fs' := by
  induction ps with
  | nil =>
    intro fs fs' h
    unfold undoCleanup at h
    cases h
    rfl
  | cons p rest ih =>
    intro fs fs' h
    unfold undoCleanup at h
    unfold specCleanup
    rw [List.foldl_cons]
    by_cases hex : fs.existsPath p
    · by_cases hdir : fs.isDir p
      · by_cases hempty : fs.dirEmpty p
        · rw [show undoCleanup1 fs p = ({ fs with dirs := fs.dirs.erase p }, none) by
            unfold undoCleanup1; rw [if_pos hex, if_pos hdir, if_pos hempty]] at h
          dsimp only at h
          rw [show specCleanup1 fs p = { fs with dirs := fs.dirs.erase p } by
            unfold specCleanup1; rw [if_pos (by rw [hdir, hempty]; rfl)]]
          exact ih _ fs' h
        · rw [show undoCleanup1 fs p = (fs, none) by
            unfold undoCleanup1; rw [if_pos hex, if_pos hdir, if_neg hempty]] at h
          dsimp only at h
          rw [show specCleanup1 fs p = fs by
            unfold specCleanup1
            rw [if_neg (by simp [Bool.and_eq_true]; intro _; simpa using hempty)]]
          exact ih _ fs' h
      · rw [show undoCleanup1 fs p = (fs, some .notADirectory) by
          unfold undoCleanup1; rw [if_pos hex, if_neg hdir]] at h
        dsimp only at h
        simp at h
    · rw [show undoCleanup1 fs p = (fs, none) by
        unfold undoCleanup1; rw [if_neg hex]] at h
      dsimp only at h
      have hdir : ¬ fs.isDir p := by
        intro hd
        exact hex (by unfold FS.existsPath FS.isDir at *; rw [hd]; simp)
      rw [show specCleanup1 fs p = fs by
        unfold specCleanup1
        rw [if_neg (by simp [Bool.and_eq_true]; intro hd; exact absurd hd hdir)]]
      exact ih _ fs' h

/-- C2: an undo run that completes without error replays the log in reverse
order moving each dest back to its source (recreating source parents),
removes each distinct destination-parent directory that is then empty, and
rotates the consumed undo log into the redo slot - afterwards no undo log
exists and the redo log holds the replayed actions. -/
theorem c2_undo_run_spec (w w' : World) (h : UndoManager.run w = (w', none)) :
    specUndoRun w = some w' ∧ w'.undoLog = none ∧ w'.redoLog = w.undoLog := by
  unfold UndoManager.run at h
  cases hu : w.undoLog with
  | none =>
    rw [hu] at h
    simp at h
  | some acts =>
    rw [hu] at h
    dsimp only at h
    cases hrm : runMoves undoStep w.fs acts.reverse with
    | mk fs1 e1 =>
      rw [hrm] at h
      cases e1 with
      | some e => simp at h
      | none =>
        dsimp only at h
        cases hcl : undoCleanup fs1 (destParents acts) with
        | mk fs2 e2 =>
          rw [hcl] at h
          cases e2 with
          | some e => simp at h
          | none =>
            dsimp only at h
            cases h
            refine ⟨?_, rfl, rfl⟩
            unfold specUndoRun
            rw [hu]
            dsimp only
            rw [← runMoves_reverse_eq_specUndoReplay acts w.fs, hrm]
            dsimp only
            rw [undoCleanup_eq_specCleanup (destParents acts) fs1 fs2 hcl]

/-- Witness for c2_undo_run_spec on a concrete one-action undo. -/
theorem c2_undo_run_spec_witness :
    specUndoRun ⟨⟨[["D", "a"]], [["D"]]⟩, some [⟨["a"], ["D", "a"]⟩], none⟩ =
      some ⟨⟨[["a"]], []⟩, none, some [⟨["a"], ["D", "a"]⟩]⟩ :=
  (c2_undo_run_spec ⟨⟨[["D", "a"]], [["D"]]⟩, some [⟨["a"], ["D", "a"]⟩], none⟩
    ⟨⟨[["a"]], []⟩, none, some [⟨["a"], ["D", "a"]⟩]⟩ (by decide)).1

/-! ## Claim C1: the apply / undo / redo round trip

The round trip fails in general (see the counterexample: a category
directory that already existed empty before the apply is deleted by the
undo cleanup).  The amended claim holds under freshness and independence
preconditions on the plan; the next sections build the replay machinery. -/

/-- Boolean prefix test agrees with the prefix relation. -/
theorem isPfx_iff {l₁ l₂ : RelPath} : l₁.isPrefixOf l₂ = true ↔ l₁ <+: l₂ :=
  List.isPrefixOf_iff_prefix

/-- Two prefixes of one list are comparable. -/
theorem pfx_comparable {x y z : RelPath} (hx : x <+: z) (hy : y <+: z) :
    x <+: y ∨ y <+: x :=
  List.prefix_or_prefix_of_prefix hx hy

/-- A prefix of the strictly shorter `dropLast` is a proper prefix. -/
theorem pfx_dropLast {p s : RelPath} (hs : s ≠ []) (h : p <+: parentDir s) :
    p <+: s ∧ p ≠ s := by
  obtain ⟨t, ht⟩ := h
  constructor
  · refine ⟨t ++ s.drop (s.length - 1), ?_⟩
    rw [← List.append_assoc, ht]
    unfold parentDir
    rw [List.dropLast_eq_take]
    exact List.take_append_drop _ _
  · intro hc
    subst hc
    have h1 : p.length ≤ (parentDir p).length := List.IsPrefix.length_le ⟨t, ht⟩
    unfold parentDir at h1
    rw [List.length_dropLast] at h1
    have h2 : 1 ≤ p.length := by
      cases p with
      | nil => exact absurd rfl hs
      | cons a q => simp
    omega

/-- Membership in `prefixesOf` is being a nonempty prefix. -/
theorem mem_prefixesOf {q p : RelPath} : q ∈ prefixesOf p ↔ q <+: p ∧ q ≠ [] := by
  unfold prefixesOf
  constructor
  · intro h
    obtain ⟨i, hmem, heq⟩ := List.mem_map.mp h
    rw [List.mem_range] at hmem
    subst heq
    constructor
    · exact List.take_prefix _ _
    · intro hc
      have hlen : (List.take (i + 1) p).length = 0 := by rw [hc]; rfl
      rw [List.length_take] at hlen
      omega
  · rintro ⟨⟨t, rfl⟩, hne⟩
    refine List.mem_map.mpr ⟨q.length - 1, List.mem_range.mpr ?_, ?_⟩
    · have : 1 ≤ q.length := by
        cases q with
        | nil => exact absurd rfl hne
        | cons a t => simp
      simp
      omega
    · have h1 : 1 ≤ q.length := by
        cases q with
        | nil => exact absurd rfl hne
        | cons a t => simp
      rw [show q.length - 1 + 1 = q.length by omega]
      rw [List.take_append_of_le_length (le_refl _), List.take_length]

/-- A single-component path is a prefix only of lists with that head. -/
theorem single_pfx_iff {a : String} {q : RelPath} :
    [a] <+: q ↔ ∃ t, q = a :: t := by
  constructor
  · rintro ⟨t, rfl⟩
    exact ⟨t, rfl⟩
  · rintro ⟨t, rfl⟩
    exact ⟨t, rfl⟩

/-- Remap acts as a translation below the source. -/
theorem remapPath_of_pfx {src dst q : RelPath} (h : src <+: q) :
    remapPath src dst q = dst ++ q.drop src.length := by
  unfold remapPath
  rw [if_pos (isPfx_iff.mpr h)]

/-- Remap fixes paths outside the source subtree. -/
theorem remapPath_of_not_pfx {src dst q : RelPath} (h : ¬ src <+: q) :
    remapPath src dst q = q := by
  unfold remapPath
  rw [if_neg (fun hb => h (isPfx_iff.mp hb))]

/-- Remapping the source itself yields the destination. -/
theorem remapPath_self (src dst : RelPath) : remapPath src dst src = dst := by
  rw [remapPath_of_pfx (List.prefix_rfl), List.drop_length, List.append_nil]

/-- Nothing in the filesystem lies at or below `d`. -/
def Fresh (fs : FS) (d : RelPath) : Prop := ∀ q ∈ FS.entries fs, ¬ d <+: q

/-- Mid-replay per-action preconditions: two-component destination whose
parent is either an already-created category directory or entirely fresh,
destination entirely fresh, source present with its parent chain of
directories present, and no overlap between the action's own paths. -/
def ActMid (fs : FS) (a : UndoAction) : Prop :=
  a.dest.length = 2 ∧
  a.source ≠ [] ∧
  (a.source ∈ fs.files ∨ a.source ∈ fs.dirs) ∧
  Fresh fs a.dest ∧
  (parentDir a.dest ∈ fs.dirs ∨ Fresh fs (parentDir a.dest)) ∧
  parentDir a.dest ∉ fs.files ∧
  (∀ p ∈ prefixesOf (parentDir a.source), p ∈ fs.dirs) ∧
  ¬ parentDir a.dest <+: a.source

/-- Pairwise independence of two planned moves: sources do not overlap,
destinations differ, and neither action's paths reach into the other's. -/
def ActIndep (a b : UndoAction) : Prop :=
  ¬ a.source <+: b.source ∧ ¬ b.source <+: a.source ∧
  a.dest ≠ b.dest ∧
  ¬ a.source <+: b.dest ∧ ¬ b.source <+: a.dest ∧
  ¬ a.dest <+: b.source ∧ ¬ b.dest <+: a.source ∧
  parentDir a.dest ≠ b.source ∧ parentDir b.dest ≠ a.source

/-- The replay precondition: duplicate-free filesystem listing, per-action
preconditions, pairwise independence. -/
def ReplayPre (fs : FS) (acts : List UndoAction) : Prop :=
  (FS.entries fs).Nodup ∧
  (∀ a ∈ acts, ActMid fs a) ∧
  acts.Pairwise ActIndep

/-- The pure effect of one forward move on the model: create the category
directory when missing, then remap the source subtree onto the destination. -/
def renameP (fs : FS) (a : UndoAction) : FS :=
  { files := fs.files.map (remapPath a.source a.dest),
    dirs := (if parentDir a.dest ∈ fs.dirs then fs.dirs
             else fs.dirs ++ [parentDir a.dest]).map (remapPath a.source a.dest) }

/-- The forward replay as a pure fold. -/
def fwdAll (fs : FS) (acts : List UndoAction) : FS := acts.foldl renameP fs

/-- The category directories a forward replay creates, relative to the
directories already present. -/
def newCats (ds : List RelPath) : List UndoAction → List RelPath
  | [] => []
  | a :: rest =>
    if parentDir a.dest ∈ ds then newCats ds rest
    else parentDir a.dest :: newCats (ds ++ [parentDir a.dest]) rest

/-- The planned action of one files-mode member. -/
def mkActF (c : String) (m : Member) : UndoAction := ⟨m.path, [c, basename m.path]⟩

/-- The actions a files-mode plan performs when nothing is skipped. -/
def plannedActsF (plan : FilesPlan) : List UndoAction :=
  plan.flatMap (fun kv => kv.2.map (mkActF kv.1))

/-- The planned action of one folders-mode member. -/
def mkActD (p s : String) : UndoAction := ⟨[s], [p, s]⟩

/-- The actions a folders-mode plan performs when nothing is skipped. -/
def plannedActsD (plan : FoldersPlan) : List UndoAction :=
  (plan.filter (fun kv => kv.1 != "_standalone")).flatMap
    (fun kv => kv.2.map (mkActD kv.1))

/-- Bridge between the boolean containment and membership. -/
theorem contains_iff_mem {α : Type} [BEq α] [LawfulBEq α] {l : List α} {x : α} :
    l.contains x = true ↔ x ∈ l := by simp

/-- A length-two list literally has two components. -/
theorem exists_two {l : RelPath} (h : l.length = 2) : ∃ c y, l = [c, y] := by
  cases l with
  | nil => simp at h
  | cons c t =>
    cases t with
    | nil => simp at h
    | cons y t2 =>
      cases t2 with
      | nil => exact ⟨c, y, rfl⟩
      | cons z t3 => simp at h

/-- The prefixes of a two-component list. -/
theorem pfx_of_two {s : RelPath} {c y : String} (h : s <+: [c, y]) :
    s = [] ∨ s = [c] ∨ s = [c, y] := by
  obtain ⟨t, ht⟩ := h
  cases s with
  | nil => exact Or.inl rfl
  | cons a s' =>
    rw [List.cons_append] at ht
    injection ht with h1 h2
    subst h1
    cases s' with
    | nil => exact Or.inr (Or.inl rfl)
    | cons b s'' =>
      rw [List.cons_append] at h2
      injection h2 with h3 h4
      subst h3
      cases s'' with
      | nil => exact Or.inr (Or.inr rfl)
      | cons d s3 =>
        rw [List.cons_append] at h4
        exact absurd h4 (by simp)

/-- From the mid-replay preconditions: the source does not reach the
destination and vice versa. -/
theorem actmid_no_self_overlap {fs : FS} {a : UndoAction} (hm : ActMid fs a) :
    ¬ a.source <+: a.dest ∧ ¬ a.dest <+: a.source := by
  obtain ⟨hlen, hsne, hsrc, hfreshD, hparent, hpfile, hsp, hpns⟩ := hm
  have hsm : a.source ∈ FS.entries fs := by
    unfold FS.entries
    rcases hsrc with h | h
    · exact List.mem_append_left _ h
    · exact List.mem_append_right _ h
  constructor
  · intro hc
    obtain ⟨c, y, hd⟩ := exists_two hlen
    rw [hd] at hc
    rcases pfx_of_two hc with h0 | h1 | h2
    · exact hsne h0
    · apply hpns
      rw [hd, h1]
      show [c] <+: [c]
      exact List.prefix_rfl
    · exact hfreshD a.source hsm (by rw [hd, h2])
  · intro hc
    exact hfreshD a.source hsm hc

/-- prefixesOf of a single component. -/
theorem prefixesOf_single (c : String) : prefixesOf [c] = [[c]] := rfl

/-- The parent of a two-component path. -/
theorem parentDir_two (c y : String) : parentDir [c, y] = [c] := rfl

/-- Files are entries. -/
theorem mem_entries_of_files {fs : FS} {q : RelPath} (h : q ∈ fs.files) :
    q ∈ FS.entries fs := List.mem_append_left _ h

/-- Directories are entries. -/
theorem mem_entries_of_dirs {fs : FS} {q : RelPath} (h : q ∈ fs.dirs) :
    q ∈ FS.entries fs := List.mem_append_right _ h

/-- A fresh path is not an entry. -/
theorem fresh_not_mem {fs : FS} {d : RelPath} (h : Fresh fs d) :
    d ∉ fs.files ∧ d ∉ fs.dirs :=
  ⟨fun hq => h d (mem_entries_of_files hq) List.prefix_rfl,
   fun hq => h d (mem_entries_of_dirs hq) List.prefix_rfl⟩

/-- Renaming onto a fresh destination is a pure remap of both listings. -/
theorem rename_fresh_eq (fs : FS) (src dst : RelPath) (hfresh : Fresh fs dst) :
    fs.rename src dst =
      ⟨fs.files.map (remapPath src dst), fs.dirs.map (remapPath src dst)⟩ := by
  obtain ⟨hdf, hdd⟩ := fresh_not_mem hfresh
  unfold FS.rename
  rw [List.filter_eq_self.mpr, List.filter_eq_self.mpr]
  · intro q hq
    simp
    exact fun hc => hdd (hc ▸ hq)
  · intro q hq
    simp
    exact fun hc => hdf (hc ▸ hq)

/-- Moving onto a fresh destination succeeds as a pure remap. -/
theorem move_fresh_eq (fs : FS) (src dst : RelPath) (hfresh : Fresh fs dst) :
    fs.move src dst =
      .ok ⟨fs.files.map (remapPath src dst), fs.dirs.map (remapPath src dst)⟩ := by
  obtain ⟨hdf, hdd⟩ := fresh_not_mem hfresh
  unfold FS.move
  rw [if_neg, if_neg]
  · rw [rename_fresh_eq fs src dst hfresh]
  · unfold FS.isFile
    rw [contains_iff_mem]
    exact hdf
  · unfold FS.isDir
    rw [contains_iff_mem]
    exact hdd

/-- os.makedirs of a single-component directory. -/
theorem mkdirs_single (fs : FS) (c : String) (hpf : [c] ∉ fs.files) :
    fs.mkdirs [c] =
      .ok ⟨fs.files, if [c] ∈ fs.dirs then fs.dirs else fs.dirs ++ [[c]]⟩ := by
  unfold FS.mkdirs
  rw [if_neg]
  · by_cases hc : [c] ∈ fs.dirs
    · rw [if_pos hc]
      rw [show (prefixesOf [c]).filter (fun q => !fs.dirs.contains q) = [] by
        rw [prefixesOf_single]
        simp [List.filter, hc]]
      rw [List.append_nil]
    · rw [if_neg hc]
      rw [show (prefixesOf [c]).filter (fun q => !fs.dirs.contains q) = [[c]] by
        rw [prefixesOf_single]
        simp [List.filter, hc]]
  · rw [prefixesOf_single]
    simp
    exact hpf

/-- os.makedirs is a no-op when the whole chain is already present. -/
theorem mkdirs_noop (fs : FS) (p : RelPath) (hnd : (FS.entries fs).Nodup)
    (hd : ∀ q ∈ prefixesOf p, q ∈ fs.dirs) : fs.mkdirs p = .ok fs := by
  unfold FS.mkdirs
  rw [if_neg]
  · rw [show (prefixesOf p).filter (fun q => !fs.dirs.contains q) = [] by
      rw [List.filter_eq_nil_iff]
      intro q hq
      simp
      exact hd q hq]
    rw [List.append_nil]
  · rw [List.any_eq_true]
    rintro ⟨q, hq, hcont⟩
    rw [contains_iff_mem] at hcont
    exact (List.disjoint_of_nodup_append hnd) hcont (hd q hq)

/-- The forward replay step acts as the pure rename under the mid-replay
preconditions. -/
theorem redoStep_eq_renameP (fs : FS) (a : UndoAction)
    (hnd : (FS.entries fs).Nodup) (hm : ActMid fs a) :
    redoStep fs a = (renameP fs a, none) := by
  obtain ⟨hlen, hsne, hsrc, hfreshD, hparent, hpfile, hsp, hpns⟩ := hm
  obtain ⟨c, y, hdest⟩ := exists_two hlen
  unfold redoStep renameP
  rw [hdest, parentDir_two]
  rw [mkdirs_single fs c (by rw [← parentDir_two c y, ← hdest]; exact hpfile)]
  dsimp only
  have hsubD : ∀ q, q ∈ fs.dirs →
      q ∈ (if [c] ∈ fs.dirs then fs.dirs else fs.dirs ++ [[c]]) := by
    intro q hq
    by_cases hc : [c] ∈ fs.dirs
    · rw [if_pos hc]; exact hq
    · rw [if_neg hc]; exact List.mem_append_left _ hq
  have hex : FS.existsPath ⟨fs.files, if [c] ∈ fs.dirs then fs.dirs
      else fs.dirs ++ [[c]]⟩ a.source = true := by
    unfold FS.existsPath
    rw [Bool.or_eq_true, contains_iff_mem, contains_iff_mem]
    rcases hsrc with h | h
    · exact Or.inl h
    · exact Or.inr (hsubD a.source h)
  rw [if_pos hex]
  have hfresh1 : Fresh ⟨fs.files, if [c] ∈ fs.dirs then fs.dirs
      else fs.dirs ++ [[c]]⟩ [c, y] := by
    intro q hq hpq
    rw [show FS.entries ⟨fs.files, if [c] ∈ fs.dirs then fs.dirs
      else fs.dirs ++ [[c]]⟩ = fs.files ++ (if [c] ∈ fs.dirs then fs.dirs
      else fs.dirs ++ [[c]]) from rfl] at hq
    rcases List.mem_append.mp hq with h | h
    · exact hfreshD q (mem_entries_of_files h) (hdest ▸ hpq)
    · by_cases hc : [c] ∈ fs.dirs
      · rw [if_pos hc] at h
        exact hfreshD q (mem_entries_of_dirs h) (hdest ▸ hpq)
      · rw [if_neg hc] at h
        rcases List.mem_append.mp h with h2 | h2
        · exact hfreshD q (mem_entries_of_dirs h2) (hdest ▸ hpq)
        · rw [List.mem_singleton] at h2
          subst h2
          have := List.IsPrefix.length_le hpq
          simp at this
  rw [move_fresh_eq _ _ _ hfresh1]

/-- A list is a prefix of itself with anything appended. -/
theorem pfx_append_right (l t : RelPath) : l <+: l ++ t := ⟨t, rfl⟩

/-- The parent of a two-component destination reaches the destination. -/
theorem parent_pfx_of_two {d : RelPath} (h : d.length = 2) : parentDir d <+: d := by
  obtain ⟨c, y, rfl⟩ := exists_two h
  exact ⟨[y], rfl⟩

/-- Remap is injective away from the destination subtree. -/
theorem remap_inj {src dst q₁ q₂ : RelPath}
    (h₁ : ¬ dst <+: q₁) (h₂ : ¬ dst <+: q₂)
    (heq : remapPath src dst q₁ = remapPath src dst q₂) : q₁ = q₂ := by
  by_cases hp₁ : src <+: q₁ <;> by_cases hp₂ : src <+: q₂
  · obtain ⟨t₁, rfl⟩ := hp₁
    obtain ⟨t₂, rfl⟩ := hp₂
    rw [remapPath_of_pfx (pfx_append_right src t₁),
        remapPath_of_pfx (pfx_append_right src t₂),
        List.drop_left, List.drop_left] at heq
    rw [List.append_cancel_left heq]
  · rw [remapPath_of_pfx hp₁, remapPath_of_not_pfx hp₂] at heq
    exact absurd (heq ▸ pfx_append_right dst _) h₂
  · rw [remapPath_of_not_pfx hp₁, remapPath_of_pfx hp₂] at heq
    exact absurd (heq.symm ▸ pfx_append_right dst _) h₁
  · rw [remapPath_of_not_pfx hp₁, remapPath_of_not_pfx hp₂] at heq
    exact heq

/-- An image under remap that starts below the (fresh) destination came from
below the source. -/
theorem pfx_of_remap {src dst q d : RelPath} (hd : d <+: remapPath src dst q)
    (hq : ¬ src <+: q) : d <+: q := by
  rw [remapPath_of_not_pfx hq] at hd
  exact hd


/-- The one-step transport of the replay precondition. -/
theorem replayPre_transport (fs : FS) (a : UndoAction) (rest : List UndoAction)
    (hpre : ReplayPre fs (a :: rest)) : ReplayPre (renameP fs a) rest := by
  obtain ⟨hnd, hall, hpair⟩ := hpre
  have hma := hall a (List.mem_cons_self _ _)
  obtain ⟨hnsd, hnds⟩ := actmid_no_self_overlap hma
  obtain ⟨hlen, hsne, hsrc, hfreshD, hparent, hpfile, hsp, hpns⟩ := hma
  obtain ⟨hab, hpairrest⟩ := List.pairwise_cons.mp hpair
  have hDcases : ∀ q, q ∈ (if parentDir a.dest ∈ fs.dirs then fs.dirs
      else fs.dirs ++ [parentDir a.dest]) → q ∈ fs.dirs ∨ q = parentDir a.dest := by
    intro q hq
    by_cases hc : parentDir a.dest ∈ fs.dirs
    · rw [if_pos hc] at hq; exact Or.inl hq
    · rw [if_neg hc] at hq
      rcases List.mem_append.mp hq with h | h
      · exact Or.inl h
      · exact Or.inr (List.mem_singleton.mp h)
  have hDsub : ∀ q, q ∈ fs.dirs → q ∈ (if parentDir a.dest ∈ fs.dirs then fs.dirs
      else fs.dirs ++ [parentDir a.dest]) := by
    intro q hq
    by_cases hc : parentDir a.dest ∈ fs.dirs
    · rw [if_pos hc]; exact hq
    · rw [if_neg hc]; exact List.mem_append_left _ hq
  have hparentD : parentDir a.dest ∈ (if parentDir a.dest ∈ fs.dirs then fs.dirs
      else fs.dirs ++ [parentDir a.dest]) := by
    by_cases hc : parentDir a.dest ∈ fs.dirs
    · rw [if_pos hc]; exact hc
    · rw [if_neg hc]; exact List.mem_append_right _ (List.mem_singleton.mpr rfl)
  have hsrc_parent : ¬ a.source <+: parentDir a.dest := by
    intro hc
    exact hnsd (hc.trans (parent_pfx_of_two hlen))
  have hfp : remapPath a.source a.dest (parentDir a.dest) = parentDir a.dest :=
    remapPath_of_not_pfx hsrc_parent
  have hentD : ∀ q ∈ fs.files ++ (if parentDir a.dest ∈ fs.dirs then fs.dirs
      else fs.dirs ++ [parentDir a.dest]), ¬ a.dest <+: q := by
    intro q hq hc
    rcases List.mem_append.mp hq with h | h
    · exact hfreshD q (mem_entries_of_files h) hc
    · rcases hDcases q h with h2 | h2
      · exact hfreshD q (mem_entries_of_dirs h2) hc
      · subst h2
        have h3 := List.IsPrefix.length_le hc
        unfold parentDir at h3
        rw [hlen, List.length_dropLast, hlen] at h3
        omega
  have hren : FS.entries (renameP fs a) =
      (fs.files ++ (if parentDir a.dest ∈ fs.dirs then fs.dirs
        else fs.dirs ++ [parentDir a.dest])).map (remapPath a.source a.dest) := by
    unfold renameP FS.entries
    rw [List.map_append]
  have hpadnd : (fs.files ++ (if parentDir a.dest ∈ fs.dirs then fs.dirs
      else fs.dirs ++ [parentDir a.dest])).Nodup := by
    by_cases hc : parentDir a.dest ∈ fs.dirs
    · rw [if_pos hc]; exact hnd
    · rw [if_neg hc, ← List.append_assoc]
      refine List.Nodup.append hnd (List.nodup_singleton _) ?_
      intro x hx hx1
      rw [List.mem_singleton] at hx1
      subst hx1
      rcases List.mem_append.mp hx with h | h
      · exact hpfile h
      · exact hc h
  refine ⟨?_, ?_, hpairrest⟩
  · rw [hren]
    refine List.Nodup.map_on ?_ hpadnd
    intro q₁ h₁ q₂ h₂ heq
    exact remap_inj (hentD q₁ h₁) (hentD q₂ h₂) heq
  · intro b hb
    have hmb := hall b (List.mem_cons_of_mem _ hb)
    have hiab := hab b hb
    obtain ⟨hnss, hnss', hdne, hnsd4, hnsd5, hnds6, hnds7, hpns8, hpns9⟩ := hiab
    obtain ⟨hlenb, hsneb, hsrcb, hfreshDb, hparentb, hpfileb, hspb, hpnsb⟩ := hmb
    have hfb : remapPath a.source a.dest b.source = b.source :=
      remapPath_of_not_pfx hnss
    refine ⟨hlenb, hsneb, ?_, ?_, ?_, ?_, ?_, hpnsb⟩
    · rcases hsrcb with h | h
      · refine Or.inl ?_
        show b.source ∈ (renameP fs a).files
        unfold renameP
        exact hfb ▸ List.mem_map_of_mem _ h
      · refine Or.inr ?_
        show b.source ∈ (renameP fs a).dirs
        unfold renameP
        exact hfb ▸ List.mem_map_of_mem _ (hDsub b.source h)
    · intro q' hq' hc
      rw [hren] at hq'
      obtain ⟨q, hq, rfl⟩ := List.mem_map.mp hq'
      by_cases hpq : a.source <+: q
      · obtain ⟨t, rfl⟩ := hpq
        rw [remapPath_of_pfx (pfx_append_right a.source t), List.drop_left] at hc
        rcases pfx_comparable hc (pfx_append_right a.dest t) with h2 | h2
        · exact hdne (List.IsPrefix.eq_of_length h2 (by rw [hlenb, hlen])).symm
        · exact hdne (List.IsPrefix.eq_of_length h2 (by rw [hlenb, hlen]))
      · rw [remapPath_of_not_pfx hpq] at hc
        rcases List.mem_append.mp hq with h | h
        · exact hfreshDb q (mem_entries_of_files h) hc
        · rcases hDcases q h with h2 | h2
          · exact hfreshDb q (mem_entries_of_dirs h2) hc
          · subst h2
            have h3 := List.IsPrefix.length_le hc
            unfold parentDir at h3
            rw [hlenb, List.length_dropLast, hlen] at h3
            omega
    · rcases hparentb with h | h
      · refine Or.inl ?_
        show parentDir b.dest ∈ (renameP fs a).dirs
        unfold renameP
        have hfix : remapPath a.source a.dest (parentDir b.dest) = parentDir b.dest :=
          remapPath_of_not_pfx (fun hc => hnsd4 (hc.trans (parent_pfx_of_two hlenb)))
        exact hfix ▸ List.mem_map_of_mem _ (hDsub _ h)
      · by_cases hpe : parentDir b.dest = parentDir a.dest
        · refine Or.inl ?_
          show parentDir b.dest ∈ (renameP fs a).dirs
          unfold renameP
          rw [hpe]
          have hmm := List.mem_map_of_mem (remapPath a.source a.dest) hparentD
          rw [hfp] at hmm
          exact hmm
        · refine Or.inr ?_
          intro q' hq' hc
          rw [hren] at hq'
          obtain ⟨q, hq, rfl⟩ := List.mem_map.mp hq'
          by_cases hpq : a.source <+: q
          · obtain ⟨t, rfl⟩ := hpq
            rw [remapPath_of_pfx (pfx_append_right a.source t), List.drop_left] at hc
            rcases pfx_comparable hc (pfx_append_right a.dest t) with h2 | h2
            · obtain ⟨c, y, hd⟩ := exists_two hlen
              obtain ⟨cb, yb, hdb⟩ := exists_two hlenb
              rw [hd] at h2
              rcases pfx_of_two h2 with h0 | h0 | h0
              · rw [hdb, parentDir_two] at h0
                simp at h0
              · apply hpe
                rw [h0, hd, parentDir_two]
              · rw [hdb, parentDir_two] at h0
                have := congrArg List.length h0
                simp at this
            · have h3 := List.IsPrefix.length_le h2
              unfold parentDir at h3
              rw [hlen, List.length_dropLast, hlenb] at h3
              omega
          · rw [remapPath_of_not_pfx hpq] at hc
            rcases List.mem_append.mp hq with h2 | h2
            · exact h q (mem_entries_of_files h2) hc
            · rcases hDcases q h2 with h3 | h3
              · exact h q (mem_entries_of_dirs h3) hc
              · subst h3
                refine hpe (List.IsPrefix.eq_of_length hc ?_)
                unfold parentDir
                rw [List.length_dropLast, List.length_dropLast, hlen, hlenb]
    · show parentDir b.dest ∉ (renameP fs a).files
      unfold renameP
      intro hmem
      obtain ⟨q, hq, heq⟩ := List.mem_map.mp hmem
      by_cases hpq : a.source <+: q
      · obtain ⟨t, rfl⟩ := hpq
        rw [remapPath_of_pfx (pfx_append_right a.source t), List.drop_left] at heq
        have hlen2 := congrArg List.length heq
        unfold parentDir at hlen2
        rw [List.length_append, hlen, List.length_dropLast, hlenb] at hlen2
        omega
      · rw [remapPath_of_not_pfx hpq] at heq
        exact hpfileb (heq ▸ hq)
    · intro p hp
      have hppfx := mem_prefixesOf.mp hp
      have hproper := pfx_dropLast hsneb hppfx.1
      have hmemp : p ∈ fs.dirs := hspb p hp
      show p ∈ (renameP fs a).dirs
      unfold renameP
      have hfix : remapPath a.source a.dest p = p :=
        remapPath_of_not_pfx (fun hc => hnss (hc.trans hproper.1))
      exact hfix ▸ List.mem_map_of_mem _ (hDsub p hmemp)

/-- Every created category is a destination parent that was missing. -/
theorem newCats_mem {ds : List RelPath} {acts : List UndoAction} {p : RelPath}
    (h : p ∈ newCats ds acts) : (∃ a ∈ acts, p = parentDir a.dest) ∧ p ∉ ds := by
  induction acts generalizing ds with
  | nil => exact absurd h (List.not_mem_nil p)
  | cons a rest ih =>
    unfold newCats at h
    by_cases hc : parentDir a.dest ∈ ds
    · rw [if_pos hc] at h
      obtain ⟨⟨b, hb, hpb⟩, hnp⟩ := ih h
      exact ⟨⟨b, List.mem_cons_of_mem _ hb, hpb⟩, hnp⟩
    · rw [if_neg hc] at h
      rcases List.mem_cons.mp h with rfl | h2
      · exact ⟨⟨a, List.mem_cons_self _ _, rfl⟩, hc⟩
      · obtain ⟨⟨b, hb, hpb⟩, hnp⟩ := ih h2
        refine ⟨⟨b, List.mem_cons_of_mem _ hb, hpb⟩, fun hpd => hnp ?_⟩
        exact List.mem_append_left _ hpd

/-- Created categories only depend on which parents are already present. -/
theorem newCats_congr {acts : List UndoAction} :
    ∀ ds₁ ds₂, (∀ b ∈ acts, (parentDir b.dest ∈ ds₁ ↔ parentDir b.dest ∈ ds₂)) →
      newCats ds₁ acts = newCats ds₂ acts := by
  induction acts with
  | nil => intro ds₁ ds₂ h; rfl
  | cons b rest ih =>
    intro ds₁ ds₂ h
    unfold newCats
    by_cases hc : parentDir b.dest ∈ ds₁
    · rw [if_pos hc, if_pos ((h b (List.mem_cons_self _ _)).mp hc)]
      exact ih ds₁ ds₂ (fun b' hb' => h b' (List.mem_cons_of_mem _ hb'))
    · rw [if_neg hc, if_neg (fun hc2 => hc ((h b (List.mem_cons_self _ _)).mpr hc2))]
      rw [ih (ds₁ ++ [parentDir b.dest]) (ds₂ ++ [parentDir b.dest])]
      intro b' hb'
      rw [List.mem_append, List.mem_append]
      rw [h b' (List.mem_cons_of_mem _ hb')]

/-- The reverse of one forward move, applied after all later actions have
been undone and while the created category directories are still present,
restores the original filesystem plus the created categories. -/
theorem undoStep_inverts (fs : FS) (a : UndoAction) (rest : List UndoAction)
    (hpre : ReplayPre fs (a :: rest)) :
    undoStep ⟨(renameP fs a).files,
              (renameP fs a).dirs ++ newCats (renameP fs a).dirs rest⟩ a =
      (⟨fs.files, fs.dirs ++ newCats fs.dirs (a :: rest)⟩, none) := by
  obtain ⟨hnd, hall, hpair⟩ := hpre
  have hma := hall a (List.mem_cons_self _ _)
  obtain ⟨hnsd, hnds⟩ := actmid_no_self_overlap hma
  obtain ⟨hlen, hsne, hsrc, hfreshD, hparent, hpfile, hsp, hpns⟩ := hma
  obtain ⟨hab, hpairrest⟩ := List.pairwise_cons.mp hpair
  have hplen1 : (parentDir a.dest).length = 1 := by
    unfold parentDir
    rw [List.length_dropLast, hlen]
  -- destination parents of the remaining actions have length one
  have hpblen : ∀ b ∈ rest, (parentDir b.dest).length = 1 := by
    intro b hb
    have hmb := hall b (List.mem_cons_of_mem _ hb)
    unfold parentDir
    rw [List.length_dropLast, hmb.1]
  -- shorthand for the padded directory list
  have hDcases : ∀ q, q ∈ (if parentDir a.dest ∈ fs.dirs then fs.dirs
      else fs.dirs ++ [parentDir a.dest]) → q ∈ fs.dirs ∨ q = parentDir a.dest := by
    intro q hq
    by_cases hc : parentDir a.dest ∈ fs.dirs
    · rw [if_pos hc] at hq; exact Or.inl hq
    · rw [if_neg hc] at hq
      rcases List.mem_append.mp hq with h | h
      · exact Or.inl h
      · exact Or.inr (List.mem_singleton.mp h)
  have hDsub : ∀ q, q ∈ fs.dirs → q ∈ (if parentDir a.dest ∈ fs.dirs then fs.dirs
      else fs.dirs ++ [parentDir a.dest]) := by
    intro q hq
    by_cases hc : parentDir a.dest ∈ fs.dirs
    · rw [if_pos hc]; exact hq
    · rw [if_neg hc]; exact List.mem_append_left _ hq
  have hsrc_parent : ¬ a.source <+: parentDir a.dest := by
    intro hc
    exact hnsd (hc.trans (parent_pfx_of_two hlen))
  -- no destination subtree member in the original entries
  have hfree : ∀ q ∈ FS.entries fs, ¬ a.dest <+: q := hfreshD
  -- back-and-forth cancellation on original entries
  have hcancel : ∀ q ∈ FS.entries fs,
      remapPath a.dest a.source (remapPath a.source a.dest q) = q := by
    intro q hq
    by_cases hpq : a.source <+: q
    · obtain ⟨t, rfl⟩ := hpq
      rw [remapPath_of_pfx (pfx_append_right a.source t), List.drop_left,
          remapPath_of_pfx (pfx_append_right a.dest t), List.drop_left]
    · rw [remapPath_of_not_pfx hpq, remapPath_of_not_pfx (hfree q hq)]
  -- images of original files never equal short directory paths
  have himg_files : ∀ q' ∈ (renameP fs a).files, ∃ q ∈ fs.files,
      q' = remapPath a.source a.dest q := by
    intro q' hq'
    unfold renameP at hq'
    obtain ⟨q, hq, heq⟩ := List.mem_map.mp hq'
    exact ⟨q, hq, heq.symm⟩
  have himg_dirs : ∀ q' ∈ (renameP fs a).dirs, ∃ q,
      (q ∈ fs.dirs ∨ q = parentDir a.dest) ∧ q' = remapPath a.source a.dest q := by
    intro q' hq'
    unfold renameP at hq'
    obtain ⟨q, hq, heq⟩ := List.mem_map.mp hq'
    exact ⟨q, hDcases q hq, heq.symm⟩
  -- the source is not present anywhere in the replayed state
  have hsrc_not_files : a.source ∉ (renameP fs a).files := by
    intro hmem
    obtain ⟨q, hq, heq⟩ := himg_files a.source hmem
    by_cases hpq : a.source <+: q
    · obtain ⟨t, rfl⟩ := hpq
      rw [remapPath_of_pfx (pfx_append_right a.source t), List.drop_left] at heq
      exact hnds (heq ▸ pfx_append_right a.dest t)
    · rw [remapPath_of_not_pfx hpq] at heq
      exact hpq (heq ▸ List.prefix_rfl)
  have hsrc_not_dirs : a.source ∉ (renameP fs a).dirs := by
    intro hmem
    obtain ⟨q, hq, heq⟩ := himg_dirs a.source hmem
    by_cases hpq : a.source <+: q
    · obtain ⟨t, rfl⟩ := hpq
      rw [remapPath_of_pfx (pfx_append_right a.source t), List.drop_left] at heq
      exact hnds (heq ▸ pfx_append_right a.dest t)
    · rw [remapPath_of_not_pfx hpq] at heq
      exact hpq (heq ▸ List.prefix_rfl)
  have hsrc_not_cats : a.source ∉ newCats (renameP fs a).dirs rest := by
    intro hmem
    obtain ⟨⟨b, hb, hpb⟩, _⟩ := newCats_mem hmem
    exact (hab b hb).2.2.2.2.2.2.2.2 hpb.symm
  have hparentD : parentDir a.dest ∈ (if parentDir a.dest ∈ fs.dirs then fs.dirs
      else fs.dirs ++ [parentDir a.dest]) := by
    by_cases hc : parentDir a.dest ∈ fs.dirs
    · rw [if_pos hc]; exact hc
    · rw [if_neg hc]; exact List.mem_append_right _ (List.mem_singleton.mpr rfl)
  have hnd_pa : ¬ a.dest <+: parentDir a.dest := by
    intro hc
    have := List.IsPrefix.length_le hc
    rw [hlen, hplen1] at this
    omega
  -- category parents of later actions sit in the replayed listing exactly
  -- when they sit in the padded original listing
  have hiff : ∀ b ∈ rest, (parentDir b.dest ∈ (renameP fs a).dirs ↔
      parentDir b.dest ∈ (if parentDir a.dest ∈ fs.dirs then fs.dirs
        else fs.dirs ++ [parentDir a.dest])) := by
    intro b hb
    constructor
    · intro hmem
      obtain ⟨q, hqD, heq⟩ := himg_dirs (parentDir b.dest) hmem
      by_cases hpq : a.source <+: q
      · obtain ⟨t, rfl⟩ := hpq
        rw [remapPath_of_pfx (pfx_append_right a.source t), List.drop_left] at heq
        have hl := congrArg List.length heq
        rw [List.length_append, hlen, hpblen b hb] at hl
        omega
      · rw [remapPath_of_not_pfx hpq] at heq
        rw [heq]
        rcases hqD with h | h
        · exact hDsub q h
        · exact h ▸ hparentD
    · intro hmem
      have hfixb : remapPath a.source a.dest (parentDir b.dest) = parentDir b.dest :=
        remapPath_of_not_pfx (fun hc =>
          (hab b hb).2.2.2.1 (hc.trans (parent_pfx_of_two
            (hall b (List.mem_cons_of_mem _ hb)).1)))
      show parentDir b.dest ∈ (renameP fs a).dirs
      unfold renameP
      exact hfixb ▸ List.mem_map_of_mem _ hmem
  -- step 1: recreating the source parents is a no-op
  have hmkdirs : FS.mkdirs ⟨(renameP fs a).files,
      (renameP fs a).dirs ++ newCats (renameP fs a).dirs rest⟩ (parentDir a.source) =
      .ok ⟨(renameP fs a).files,
        (renameP fs a).dirs ++ newCats (renameP fs a).dirs rest⟩ := by
    have hpres : ∀ q ∈ prefixesOf (parentDir a.source), q ∈ (renameP fs a).dirs := by
      intro q hq
      obtain ⟨hq1, hq2⟩ := mem_prefixesOf.mp hq
      obtain ⟨hq3, hq4⟩ := pfx_dropLast hsne hq1
      have hmemq : q ∈ fs.dirs := hsp q hq
      have hfix : remapPath a.source a.dest q = q := by
        refine remapPath_of_not_pfx (fun hc => hq4 ?_)
        exact List.IsPrefix.eq_of_length hq3
          (le_antisymm (List.IsPrefix.length_le hq3) (List.IsPrefix.length_le hc))
      unfold renameP
      exact hfix ▸ List.mem_map_of_mem _ (hDsub q hmemq)
    unfold FS.mkdirs
    rw [if_neg, show (prefixesOf (parentDir a.source)).filter
        (fun q => !((renameP fs a).dirs ++
          newCats (renameP fs a).dirs rest).contains q) = [] by
      rw [List.filter_eq_nil_iff]
      intro q hq
      rw [show ((renameP fs a).dirs ++ newCats (renameP fs a).dirs rest).contains q =
          true from contains_iff_mem.mpr (List.mem_append_left _ (hpres q hq))]
      simp]
    · rw [List.append_nil]
    · rw [List.any_eq_true]
      rintro ⟨q, hq, hcont⟩
      rw [contains_iff_mem] at hcont
      obtain ⟨q0, hq0, heq0⟩ := himg_files q hcont
      obtain ⟨hq1, hq2⟩ := mem_prefixesOf.mp hq
      obtain ⟨hq3, hq4⟩ := pfx_dropLast hsne hq1
      by_cases hpq : a.source <+: q0
      · obtain ⟨t, rfl⟩ := hpq
        rw [remapPath_of_pfx (pfx_append_right a.source t), List.drop_left] at heq0
        exact hnds ((heq0 ▸ pfx_append_right a.dest t).trans hq3)
      · rw [remapPath_of_not_pfx hpq] at heq0
        subst heq0
        exact (List.disjoint_of_nodup_append hnd) hq0 (hsp q hq)
  -- step 2: the moved entry is present at its destination
  have hexD : FS.existsPath ⟨(renameP fs a).files,
      (renameP fs a).dirs ++ newCats (renameP fs a).dirs rest⟩ a.dest = true := by
    unfold FS.existsPath
    rw [Bool.or_eq_true, contains_iff_mem, contains_iff_mem]
    rcases hsrc with h | h
    · refine Or.inl ?_
      show a.dest ∈ (renameP fs a).files
      unfold renameP
      have hmm := List.mem_map_of_mem (remapPath a.source a.dest) h
      rw [remapPath_self] at hmm
      exact hmm
    · refine Or.inr (List.mem_append_left _ ?_)
      show a.dest ∈ (renameP fs a).dirs
      unfold renameP
      have hmm := List.mem_map_of_mem (remapPath a.source a.dest) (hDsub _ h)
      rw [remapPath_self] at hmm
      exact hmm
  -- the three map cancellations
  have hfilesmap : (renameP fs a).files.map (remapPath a.dest a.source) = fs.files := by
    unfold renameP
    rw [List.map_map]
    refine (List.map_congr_left ?_).trans (List.map_id fs.files)
    intro q hq
    exact hcancel q (mem_entries_of_files hq)
  have hdirsmapD : (renameP fs a).dirs.map (remapPath a.dest a.source) =
      (if parentDir a.dest ∈ fs.dirs then fs.dirs
        else fs.dirs ++ [parentDir a.dest]) := by
    unfold renameP
    rw [List.map_map]
    refine (List.map_congr_left ?_).trans (List.map_id _)
    intro q hq
    rcases hDcases q hq with h | h
    · exact hcancel q (mem_entries_of_dirs h)
    · subst h
      show remapPath a.dest a.source (remapPath a.source a.dest (parentDir a.dest)) =
        parentDir a.dest
      rw [remapPath_of_not_pfx hsrc_parent, remapPath_of_not_pfx hnd_pa]
  have hcatsmap : (newCats (renameP fs a).dirs rest).map (remapPath a.dest a.source) =
      newCats (renameP fs a).dirs rest := by
    refine (List.map_congr_left ?_).trans (List.map_id _)
    intro p hp
    obtain ⟨⟨b, hb, rfl⟩, _⟩ := newCats_mem hp
    refine remapPath_of_not_pfx (fun hc => ?_)
    have := List.IsPrefix.length_le hc
    rw [hlen, hpblen b hb] at this
    omega
  -- step 3: the guarded move restores source from dest
  have hmove : FS.move ⟨(renameP fs a).files,
      (renameP fs a).dirs ++ newCats (renameP fs a).dirs rest⟩ a.dest a.source =
      .ok ⟨fs.files, (if parentDir a.dest ∈ fs.dirs then fs.dirs
        else fs.dirs ++ [parentDir a.dest]) ++ newCats (renameP fs a).dirs rest⟩ := by
    unfold FS.move
    rw [if_neg, if_neg]
    · unfold FS.rename
      rw [List.filter_eq_self.mpr, List.filter_eq_self.mpr]
      · show Except.ok (FS.mk _ _) = _
        rw [List.map_append, hfilesmap, hdirsmapD, hcatsmap]
      · intro q hq
        simp only [Bool.not_eq_true', beq_eq_false_iff_ne, ne_eq]
        intro hc
        subst hc
        rcases List.mem_append.mp hq with h | h
        · exact hsrc_not_dirs h
        · exact hsrc_not_cats h
      · intro q hq
        simp only [Bool.not_eq_true', beq_eq_false_iff_ne, ne_eq]
        intro hc
        subst hc
        exact hsrc_not_files hq
    · show ¬ FS.isFile _ a.source = true
      unfold FS.isFile
      rw [contains_iff_mem]
      exact hsrc_not_files
    · show ¬ FS.isDir _ a.source = true
      unfold FS.isDir
      rw [contains_iff_mem]
      intro hmem
      rcases List.mem_append.mp hmem with h | h
      · exact hsrc_not_dirs h
      · exact hsrc_not_cats h
  -- the final directory bookkeeping
  have hdirs_final : (if parentDir a.dest ∈ fs.dirs then fs.dirs
      else fs.dirs ++ [parentDir a.dest]) ++ newCats (renameP fs a).dirs rest =
      fs.dirs ++ newCats fs.dirs (a :: rest) := by
    rw [show newCats fs.dirs (a :: rest) =
        if parentDir a.dest ∈ fs.dirs then newCats fs.dirs rest
        else parentDir a.dest :: newCats (fs.dirs ++ [parentDir a.dest]) rest from rfl]
    by_cases hc : parentDir a.dest ∈ fs.dirs
    · rw [if_pos hc, if_pos hc]
      rw [newCats_congr (renameP fs a).dirs fs.dirs (by
        intro b hb
        rw [hiff b hb, if_pos hc])]
    · rw [if_neg hc, if_neg hc]
      rw [newCats_congr (renameP fs a).dirs (fs.dirs ++ [parentDir a.dest]) (by
        intro b hb
        rw [hiff b hb, if_neg hc])]
      rw [List.append_assoc]
      rfl
  -- assemble
  unfold undoStep
  rw [hmkdirs]
  dsimp only
  rw [if_pos hexD, hmove]
  dsimp only
  rw [hdirs_final]

/-- The round-trip core: under the replay preconditions the forward replay
runs without error and reaches the pure fold, and the reversed backward
replay then restores the original filesystem with only the created category
directories left over. -/
theorem replay_roundtrip (acts : List UndoAction) :
    ∀ fs, ReplayPre fs acts →
      runMoves redoStep fs acts = (fwdAll fs acts, none) ∧
      runMoves undoStep (fwdAll fs acts) acts.reverse =
        (⟨fs.files, fs.dirs ++ newCats fs.dirs acts⟩, none) := by
  induction acts with
  | nil =>
    intro fs hpre
    constructor
    · rfl
    · show runMoves undoStep fs [] = _
      unfold runMoves newCats
      rw [List.append_nil]
  | cons a rest ih =>
    intro fs hpre
    have hnd := hpre.1
    have hma := hpre.2.1 a (List.mem_cons_self _ _)
    have htrans := replayPre_transport fs a rest hpre
    have hstep := redoStep_eq_renameP fs a hnd hma
    obtain ⟨ihf, ihb⟩ := ih (renameP fs a) htrans
    constructor
    · rw [show runMoves redoStep fs (a :: rest) =
          match redoStep fs a with
          | (fs', none) => runMoves redoStep fs' rest
          | (fs', some e) => (fs', some e) from rfl, hstep]
      dsimp only
      rw [ihf]
      rfl
    · show runMoves undoStep (fwdAll fs (a :: rest)) (a :: rest).reverse = _
      rw [List.reverse_cons]
      rw [show fwdAll fs (a :: rest) = fwdAll (renameP fs a) rest from rfl]
      rw [runMoves_append_ok undoStep rest.reverse [a] _ _ ihb]
      rw [runMoves_single]
      exact undoStep_inverts fs a rest hpre

/-- Every action whose parent is missing gets its category created. -/
theorem newCats_complete {acts : List UndoAction} :
    ∀ ds, ∀ a ∈ acts, parentDir a.dest ∉ ds → parentDir a.dest ∈ newCats ds acts := by
  induction acts with
  | nil => intro ds a ha; exact absurd ha (List.not_mem_nil a)
  | cons b rest ih =>
    intro ds a ha hnds
    unfold newCats
    by_cases hc : parentDir b.dest ∈ ds
    · rw [if_pos hc]
      rcases List.mem_cons.mp ha with rfl | h2
      · exact absurd hc hnds
      · exact ih ds a h2 hnds
    · rw [if_neg hc]
      rcases List.mem_cons.mp ha with rfl | h2
      · exact List.mem_cons_self _ _
      · by_cases hpp : parentDir a.dest = parentDir b.dest
        · rw [hpp]
          exact List.mem_cons_self _ _
        · refine List.mem_cons_of_mem _ (ih (ds ++ [parentDir b.dest]) a h2 ?_)
          intro hmem
          rcases List.mem_append.mp hmem with h3 | h3
          · exact hnds h3
          · exact hpp (List.mem_singleton.mp h3)

/-- The created categories are pairwise distinct. -/
theorem newCats_nodup {acts : List UndoAction} : ∀ ds, (newCats ds acts).Nodup := by
  induction acts with
  | nil => intro ds; exact List.nodup_nil
  | cons b rest ih =>
    intro ds
    unfold newCats
    by_cases hc : parentDir b.dest ∈ ds
    · rw [if_pos hc]; exact ih ds
    · rw [if_neg hc]
      rw [List.nodup_cons]
      refine ⟨?_, ih _⟩
      intro hmem
      exact (newCats_mem hmem).2 (List.mem_append_right _ (List.mem_singleton.mpr rfl))

/-- Removing a set of freshly created, mutually prefix-free, empty
directories restores the base directory listing. -/
theorem cleanup_restores (F B : List RelPath) :
    ∀ (ps C : List RelPath),
      (∀ c ∈ C, c ∈ ps) → (∀ p ∈ ps, p ∈ C) → C.Nodup → ps.Nodup →
      (∀ c ∈ C, ∀ q ∈ F ++ B, ¬ c <+: q) →
      (∀ c ∈ C, ∀ c' ∈ C, c <+: c' → c = c') →
      undoCleanup ⟨F, B ++ C⟩ ps = (⟨F, B⟩, none) := by
  intro ps
  induction ps with
  | nil =>
    intro C hCps hpsC hCnd hpsnd hCfresh hClen
    have hC : C = [] := by
      rw [List.eq_nil_iff_forall_not_mem]
      intro c hc
      exact absurd (hCps c hc) (List.not_mem_nil c)
    rw [hC, List.append_nil]
    rfl
  | cons p ps' ih =>
    intro C hCps hpsC hCnd hpsnd hCfresh hClen
    have hpC : p ∈ C := hpsC p (List.mem_cons_self _ _)
    have hpnotB : p ∉ B := fun hmem =>
      hCfresh p hpC p (List.mem_append_right _ hmem) List.prefix_rfl
    have hpnotF : p ∉ F := fun hmem =>
      hCfresh p hpC p (List.mem_append_left _ hmem) List.prefix_rfl
    have hstep : undoCleanup1 ⟨F, B ++ C⟩ p = (⟨F, B ++ C.erase p⟩, none) := by
      unfold undoCleanup1
      have hex : FS.existsPath ⟨F, B ++ C⟩ p = true := by
        unfold FS.existsPath
        rw [Bool.or_eq_true, contains_iff_mem, contains_iff_mem]
        exact Or.inr (List.mem_append_right _ hpC)
      have hdir : FS.isDir ⟨F, B ++ C⟩ p = true := by
        unfold FS.isDir
        rw [contains_iff_mem]
        exact List.mem_append_right _ hpC
      have hempty : FS.dirEmpty ⟨F, B ++ C⟩ p = true := by
        unfold FS.dirEmpty
        rw [List.all_eq_true]
        intro q hq
        have hqm : q ∈ F ++ B ∨ q ∈ C := by
          have hq' : q ∈ F ++ (B ++ C) := hq
          rcases List.mem_append.mp hq' with h | h
          · exact Or.inl (List.mem_append_left _ h)
          · rcases List.mem_append.mp h with h2 | h2
            · exact Or.inl (List.mem_append_right _ h2)
            · exact Or.inr h2
        simp only [Bool.or_eq_true, Bool.not_eq_true', beq_iff_eq]
        by_cases hpq : p <+: q
        · rcases hqm with h | h
          · exact absurd hpq (hCfresh p hpC q h)
          · exact Or.inr (hClen p hpC q h hpq)
        · refine Or.inl ?_
          rw [Bool.eq_false_iff]
          intro hb
          exact hpq (isPfx_iff.mp hb)
      rw [if_pos hex, if_pos hdir, if_pos hempty]
      show ((⟨F, (B ++ C).erase p⟩ : FS), (none : Option FsErr)) = _
      rw [List.erase_append_right _ hpnotB]
    rw [show undoCleanup ⟨F, B ++ C⟩ (p :: ps') =
        match undoCleanup1 ⟨F, B ++ C⟩ p with
        | (fs', none) => undoCleanup fs' ps'
        | (fs', some e) => (fs', some e) from rfl, hstep]
    dsimp only
    refine ih (C.erase p) ?_ ?_ (hCnd.erase p) (List.nodup_cons.mp hpsnd).2 ?_ ?_
    · intro c hc
      have hcC := List.mem_of_mem_erase hc
      have hcne : c ≠ p := by
        intro hceq
        subst hceq
        exact (List.Nodup.mem_erase_iff hCnd).mp hc |>.1 rfl
      rcases List.mem_cons.mp (hCps c hcC) with h | h
      · exact absurd h hcne
      · exact h
    · intro q hq
      have hqC := hpsC q (List.mem_cons_of_mem _ hq)
      have hqne : q ≠ p := by
        intro hqe
        subst hqe
        exact (List.nodup_cons.mp hpsnd).1 hq
      exact (List.Nodup.mem_erase_iff hCnd).mpr ⟨hqne, hqC⟩
    · intro c hc q hq
      exact hCfresh c (List.mem_of_mem_erase hc) q hq
    · intro c hc c' hc'
      exact hClen c (List.mem_of_mem_erase hc) c' (List.mem_of_mem_erase hc')

/-- When every destination category was fresh before the apply and every
category is a single path component, the cleanup pass removes exactly the
created category directories. -/
theorem cleanup_after_undo (fs : FS) (acts : List UndoAction)
    (hlen : ∀ a ∈ acts, (parentDir a.dest).length = 1)
    (hfresh : ∀ a ∈ acts, Fresh fs (parentDir a.dest)) :
    undoCleanup ⟨fs.files, fs.dirs ++ newCats fs.dirs acts⟩ (destParents acts) =
      (⟨fs.files, fs.dirs⟩, none) := by
  refine cleanup_restores fs.files fs.dirs (destParents acts) (newCats fs.dirs acts)
    ?_ ?_ ?_ (List.nodup_dedup _) ?_ ?_
  · intro c hc
    obtain ⟨⟨a, ha, hpa⟩, _⟩ := newCats_mem hc
    unfold destParents
    rw [List.mem_dedup]
    exact List.mem_map.mpr ⟨a, ha, hpa.symm⟩
  · intro p hp
    unfold destParents at hp
    obtain ⟨a, ha, hpa⟩ := List.mem_map.mp (List.mem_dedup.mp hp)
    subst hpa
    refine newCats_complete fs.dirs a ha ?_
    intro hmem
    exact hfresh a ha _ (List.mem_append_right _ hmem) List.prefix_rfl
  · exact newCats_nodup _
  · intro c hc q hq
    obtain ⟨⟨a, ha, hpa⟩, _⟩ := newCats_mem hc
    subst hpa
    exact hfresh a ha q hq
  · intro c hc c' hc' hpfx
    obtain ⟨⟨a, ha, hpa⟩, _⟩ := newCats_mem hc
    obtain ⟨⟨a', ha', hpa'⟩, _⟩ := newCats_mem hc'
    refine List.IsPrefix.eq_of_length hpfx ?_
    rw [hpa, hpa', hlen a ha, hlen a' ha']

/-- The prefixes of a singleton list. -/
theorem pfx_of_single {s : RelPath} {c : String} (h : s <+: [c]) : s = [] ∨ s = [c] := by
  obtain ⟨t, ht⟩ := h
  cases s with
  | nil => exact Or.inl rfl
  | cons a s' =>
    rw [List.cons_append] at ht
    injection ht with h1 h2
    subst h1
    rcases List.append_eq_nil.mp h2 with ⟨hs', _⟩
    subst hs'
    exact Or.inr rfl

/-- The action's source never reaches its own destination's parent. -/
theorem source_not_pfx_parent {fs : FS} {a : UndoAction} (hm : ActMid fs a) :
    ¬ a.source <+: parentDir a.dest := by
  obtain ⟨hlen, hsne, hsrc, hfreshD, hparent, hpfile, hsp, hpns⟩ := hm
  obtain ⟨c, y, hdest⟩ := exists_two hlen
  rw [hdest, parentDir_two]
  intro hp
  rcases pfx_of_single hp with h | h
  · exact hsne h
  · rw [hdest, parentDir_two] at hpns
    refine hpns ?_
    rw [h]

/-- The pure rename when the category directory already exists. -/
theorem renameP_present {fs : FS} {a : UndoAction} (hc : parentDir a.dest ∈ fs.dirs) :
    renameP fs a = ⟨fs.files.map (remapPath a.source a.dest),
      fs.dirs.map (remapPath a.source a.dest)⟩ := by
  unfold renameP
  rw [if_pos hc]

/-- The category directory survives its own category's moves. -/
theorem renameP_keeps_parent {fs : FS} {a : UndoAction} (hm : ActMid fs a)
    (hc : parentDir a.dest ∈ fs.dirs) : parentDir a.dest ∈ (renameP fs a).dirs := by
  rw [renameP_present hc]
  exact List.mem_map.mpr ⟨parentDir a.dest, hc,
    remapPath_of_not_pfx (source_not_pfx_parent hm)⟩

/-- An applier move step under the replay precondition: the source exists
and shutil.move is the pure rename. -/
theorem step_move_eq {fs : FS} {a : UndoAction} (hm : ActMid fs a)
    (hc : parentDir a.dest ∈ fs.dirs) :
    FS.existsPath fs a.source = true ∧ fs.move a.source a.dest = .ok (renameP fs a) := by
  obtain ⟨hlen, hsne, hsrc, hfreshD, hparent, hpfile, hsp, hpns⟩ := hm
  constructor
  · unfold FS.existsPath
    rw [Bool.or_eq_true, contains_iff_mem, contains_iff_mem]
    exact hsrc
  · rw [move_fresh_eq fs a.source a.dest hfreshD, renameP_present hc]

/-- The member loop of a files-mode category equals the pure forward replay
when the category directory is already present. -/
theorem fileMoveItems_replay (c : String) (ms : List Member) :
    ∀ fs acc extra,
      ReplayPre fs (ms.map (mkActF c) ++ extra) →
      [c] ∈ fs.dirs →
      fileMoveItems fs c ms acc =
          ⟨fwdAll fs (ms.map (mkActF c)), acc ++ ms.map (mkActF c), none⟩ ∧
        ReplayPre (fwdAll fs (ms.map (mkActF c))) extra ∧
        [c] ∈ (fwdAll fs (ms.map (mkActF c))).dirs := by
  induction ms with
  | nil =>
    intro fs acc extra hpre hc
    refine ⟨?_, hpre, hc⟩
    show (⟨fs, acc, none⟩ : ExecOut) = ⟨fs, acc ++ [], none⟩
    rw [List.append_nil]
  | cons m rest ih =>
    intro fs acc extra hpre hc
    rw [List.map_cons] at hpre ⊢
    rw [List.cons_append] at hpre
    have hma : ActMid fs (mkActF c m) := hpre.2.1 _ (List.mem_cons_self _ _)
    have hc' : parentDir (mkActF c m).dest ∈ fs.dirs := hc
    obtain ⟨hex, hmv⟩ := step_move_eq hma hc'
    have hex' : FS.existsPath fs m.path = true := hex
    have hmv' : fs.move m.path [c, basename m.path] = .ok (renameP fs (mkActF c m)) := hmv
    have hpre' := replayPre_transport fs (mkActF c m) _ hpre
    have hc2 : [c] ∈ (renameP fs (mkActF c m)).dirs := renameP_keeps_parent hma hc'
    obtain ⟨he, hrp, hcf⟩ := ih (renameP fs (mkActF c m)) (acc ++ [mkActF c m]) extra hpre' hc2
    refine ⟨?_, ?_, ?_⟩
    · rw [show fileMoveItems fs c (m :: rest) acc =
          (if fs.existsPath m.path then
            match fs.move m.path [c, basename m.path] with
            | .ok fs' => fileMoveItems fs' c rest (acc ++ [⟨m.path, [c, basename m.path]⟩])
            | .error e => ⟨fs, acc ++ [⟨m.path, [c, basename m.path]⟩], some e⟩
          else fileMoveItems fs c rest acc) from rfl]
      rw [if_pos hex', hmv']
      dsimp only
      rw [show fwdAll fs (mkActF c m :: rest.map (mkActF c)) =
          fwdAll (renameP fs (mkActF c m)) (rest.map (mkActF c)) from rfl]
      rw [show acc ++ mkActF c m :: List.map (mkActF c) rest =
          (acc ++ [mkActF c m]) ++ List.map (mkActF c) rest by
        rw [List.append_cons]]
      exact he
    · rw [show fwdAll fs (mkActF c m :: rest.map (mkActF c)) =
          fwdAll (renameP fs (mkActF c m)) (rest.map (mkActF c)) from rfl]
      exact hrp
    · rw [show fwdAll fs (mkActF c m :: rest.map (mkActF c)) =
          fwdAll (renameP fs (mkActF c m)) (rest.map (mkActF c)) from rfl]
      exact hcf

/-- The replay precondition survives os.makedirs of a category directory. -/
theorem replayPre_mkdir_pad (fs : FS) (c : String) (acts : List UndoAction)
    (hpre : ReplayPre fs acts) (hcf : [c] ∉ fs.files) :
    ReplayPre ⟨fs.files, if [c] ∈ fs.dirs then fs.dirs else fs.dirs ++ [[c]]⟩ acts := by
  by_cases hc : [c] ∈ fs.dirs
  · rw [if_pos hc]
    exact hpre
  · rw [if_neg hc]
    obtain ⟨hnd, hall, hpair⟩ := hpre
    refine ⟨?_, ?_, hpair⟩
    · show (fs.files ++ (fs.dirs ++ [[c]])).Nodup
      rw [← List.append_assoc]
      refine List.Nodup.append hnd (List.nodup_singleton _) ?_
      intro q hq hq2
      rw [List.mem_singleton] at hq2
      subst hq2
      rcases List.mem_append.mp hq with h | h
      · exact hcf h
      · exact hc h
    · intro a ha
      obtain ⟨hlen, hsne, hsrc, hfreshD, hparent, hpfile, hsp, hpns⟩ := hall a ha
      refine ⟨hlen, hsne, ?_, ?_, ?_, hpfile, ?_, hpns⟩
      · rcases hsrc with h | h
        · exact Or.inl h
        · exact Or.inr (List.mem_append_left _ h)
      · intro q hq hpq
        have hq' : q ∈ fs.files ++ (fs.dirs ++ [[c]]) := hq
        rcases List.mem_append.mp hq' with h | h
        · exact hfreshD q (mem_entries_of_files h) hpq
        · rcases List.mem_append.mp h with h2 | h2
          · exact hfreshD q (mem_entries_of_dirs h2) hpq
          · rw [List.mem_singleton] at h2
            subst h2
            have hle := List.IsPrefix.length_le hpq
            rw [hlen] at hle
            simp at hle
      · rcases hparent with h | h
        · exact Or.inl (List.mem_append_left _ h)
        · by_cases hpc : parentDir a.dest = [c]
          · exact Or.inl (List.mem_append_right _ (List.mem_singleton.mpr hpc))
          · refine Or.inr ?_
            intro q hq hpq
            have hq' : q ∈ fs.files ++ (fs.dirs ++ [[c]]) := hq
            rcases List.mem_append.mp hq' with h2 | h2
            · exact h q (mem_entries_of_files h2) hpq
            · rcases List.mem_append.mp h2 with h3 | h3
              · exact h q (mem_entries_of_dirs h3) hpq
              · rw [List.mem_singleton] at h3
                subst h3
                rcases pfx_of_single hpq with h4 | h4
                · have hl1 : (parentDir a.dest).length = 1 := by
                    unfold parentDir
                    rw [List.length_dropLast, hlen]
                  rw [h4] at hl1
                  simp at hl1
                · exact hpc h4
      · intro p hp
        exact List.mem_append_left _ (hsp p hp)

/-- Padding the category directory first does not change the pure rename. -/
theorem renameP_pad_eq (fs : FS) (a : UndoAction) (c : String)
    (hp : parentDir a.dest = [c]) :
    renameP ⟨fs.files, if [c] ∈ fs.dirs then fs.dirs else fs.dirs ++ [[c]]⟩ a =
      renameP fs a := by
  rw [← hp]
  by_cases hc : parentDir a.dest ∈ fs.dirs
  · rw [if_pos hc]
  · rw [if_neg hc]
    unfold renameP
    dsimp only
    rw [if_pos (List.mem_append_right _ (List.mem_singleton.mpr rfl)), if_neg hc]

/-- Padding the category directory first does not change the forward replay
that begins with a move into that category. -/
theorem fwdAll_pad_eq (fs : FS) (a : UndoAction) (l : List UndoAction) (c : String)
    (hp : parentDir a.dest = [c]) :
    fwdAll ⟨fs.files, if [c] ∈ fs.dirs then fs.dirs else fs.dirs ++ [[c]]⟩ (a :: l) =
      fwdAll fs (a :: l) := by
  show fwdAll (renameP ⟨fs.files, if [c] ∈ fs.dirs then fs.dirs
    else fs.dirs ++ [[c]]⟩ a) l = fwdAll (renameP fs a) l
  rw [renameP_pad_eq fs a c hp]

/-- The forward replay splits over concatenation. -/
theorem fwdAll_append (fs : FS) (l₁ l₂ : List UndoAction) :
    fwdAll fs (l₁ ++ l₂) = fwdAll (fwdAll fs l₁) l₂ := by
  unfold fwdAll
  rw [List.foldl_append]

/-- The category loop of FileOrganizer.execute_plan equals the pure forward
replay of the planned actions. -/
theorem fileExecCats_replay (plan : FilesPlan) :
    ∀ fs acc,
      ReplayPre fs (plannedActsF plan) →
      (∀ kv ∈ plan, kv.2 ≠ []) →
      fileExecCats fs plan acc =
        ⟨fwdAll fs (plannedActsF plan), acc ++ plannedActsF plan, none⟩ := by
  induction plan with
  | nil =>
    intro fs acc hpre hne
    show (⟨fs, acc, none⟩ : ExecOut) = ⟨fs, acc ++ [], none⟩
    rw [List.append_nil]
  | cons kv rest ih =>
    obtain ⟨c, items⟩ := kv
    intro fs acc hpre hne
    have hplan : plannedActsF ((c, items) :: rest) =
        items.map (mkActF c) ++ plannedActsF rest := rfl
    rw [hplan] at hpre ⊢
    have hne0 : items ≠ [] := hne (c, items) (List.mem_cons_self _ _)
    obtain ⟨m0, items', hitems⟩ := List.exists_cons_of_ne_nil hne0
    subst hitems
    rw [List.map_cons, List.cons_append] at hpre
    have hma0 : ActMid fs (mkActF c m0) := hpre.2.1 _ (List.mem_cons_self _ _)
    have hpf : [c] ∉ fs.files := hma0.2.2.2.2.2.1
    rw [show fileExecCats fs ((c, m0 :: items') :: rest) acc =
        (match fs.mkdirs [c] with
        | .error e => ⟨fs, acc, some e⟩
        | .ok fs1 =>
          match fileMoveItems fs1 c (m0 :: items') acc with
          | ⟨fs2, acts2, none⟩ => fileExecCats fs2 rest acts2
          | r => r) from rfl]
    rw [mkdirs_single fs c hpf]
    dsimp only
    have hpre1 : ReplayPre ⟨fs.files, if [c] ∈ fs.dirs then fs.dirs else fs.dirs ++ [[c]]⟩
        ((m0 :: items').map (mkActF c) ++ plannedActsF rest) :=
      replayPre_mkdir_pad fs c _ hpre hpf
    have hc1 : [c] ∈ (⟨fs.files, if [c] ∈ fs.dirs then fs.dirs
        else fs.dirs ++ [[c]]⟩ : FS).dirs := by
      dsimp only
      by_cases hcc : [c] ∈ fs.dirs
      · rw [if_pos hcc]; exact hcc
      · rw [if_neg hcc]; exact List.mem_append_right _ (List.mem_singleton.mpr rfl)
    obtain ⟨he, hrp, hcd⟩ :=
      fileMoveItems_replay c (m0 :: items') _ acc (plannedActsF rest) hpre1 hc1
    rw [he]
    dsimp only
    rw [ih _ _ hrp (fun kv hkv => hne kv (List.mem_cons_of_mem _ hkv))]
    rw [List.map_cons]
    rw [fwdAll_append fs (mkActF c m0 :: items'.map (mkActF c)) (plannedActsF rest)]
    rw [← fwdAll_pad_eq fs (mkActF c m0) (items'.map (mkActF c)) c rfl]
    rw [List.append_assoc]

/-- A directory source unaffected by an independent move stays a directory. -/
theorem dirs_mem_transport (fs : FS) (a : UndoAction) {b : UndoAction}
    (hb : b.source ∈ fs.dirs) (hind : ¬ a.source <+: b.source) :
    b.source ∈ (renameP fs a).dirs := by
  unfold renameP
  dsimp only
  refine List.mem_map.mpr ⟨b.source, ?_, remapPath_of_not_pfx hind⟩
  by_cases hc : parentDir a.dest ∈ fs.dirs
  · rw [if_pos hc]; exact hb
  · rw [if_neg hc]; exact List.mem_append_left _ hb

/-- The child loop of a folders-mode category equals the pure forward replay
when no child shares the parent's name and every child is a directory. -/
theorem folderMoveItems_replay (p : String) (subs : List String) :
    ∀ fs acc extra,
      ReplayPre fs (subs.map (mkActD p) ++ extra) →
      [p] ∈ fs.dirs →
      (∀ s ∈ subs, s ≠ p) →
      (∀ a ∈ subs.map (mkActD p) ++ extra, a.source ∈ fs.dirs) →
      folderMoveItems fs p subs acc =
          ⟨fwdAll fs (subs.map (mkActD p)), acc ++ subs.map (mkActD p), none⟩ ∧
        ReplayPre (fwdAll fs (subs.map (mkActD p))) extra ∧
        [p] ∈ (fwdAll fs (subs.map (mkActD p))).dirs ∧
        (∀ a ∈ extra, a.source ∈ (fwdAll fs (subs.map (mkActD p))).dirs) := by
  induction subs with
  | nil =>
    intro fs acc extra hpre hc hsp hdirs
    refine ⟨?_, hpre, hc, hdirs⟩
    show (⟨fs, acc, none⟩ : ExecOut) = ⟨fs, acc ++ [], none⟩
    rw [List.append_nil]
  | cons s rest ih =>
    intro fs acc extra hpre hc hsp hdirs
    rw [List.map_cons] at hpre hdirs ⊢
    rw [List.cons_append] at hpre hdirs
    have hma : ActMid fs (mkActD p s) := hpre.2.1 _ (List.mem_cons_self _ _)
    have hc' : parentDir (mkActD p s).dest ∈ fs.dirs := hc
    obtain ⟨hex, hmv⟩ := step_move_eq hma hc'
    have hsd : fs.isDir [s] = true := by
      unfold FS.isDir
      rw [contains_iff_mem]
      exact hdirs _ (List.mem_cons_self _ _)
    have hmv' : fs.move [s] [p, s] = .ok (renameP fs (mkActD p s)) := hmv
    have hpre' := replayPre_transport fs (mkActD p s) _ hpre
    have hc2 : [p] ∈ (renameP fs (mkActD p s)).dirs := renameP_keeps_parent hma hc'
    have hind : ∀ b ∈ rest.map (mkActD p) ++ extra, ¬ (mkActD p s).source <+: b.source := by
      intro b hb
      exact ((List.pairwise_cons.mp hpre.2.2).1 b hb).1
    have hdirs' : ∀ a ∈ rest.map (mkActD p) ++ extra,
        a.source ∈ (renameP fs (mkActD p s)).dirs := by
      intro b hb
      exact dirs_mem_transport fs (mkActD p s) (hdirs b (List.mem_cons_of_mem _ hb)) (hind b hb)
    obtain ⟨he, hrp, hcf, hdf⟩ := ih (renameP fs (mkActD p s)) (acc ++ [mkActD p s]) extra
      hpre' hc2 (fun s' hs' => hsp s' (List.mem_cons_of_mem _ hs')) hdirs'
    refine ⟨?_, ?_, ?_, ?_⟩
    · rw [show folderMoveItems fs p (s :: rest) acc =
          (if p = s then folderMoveItems fs p rest acc
          else if fs.isDir [s] then
            match fs.move [s] [p, s] with
            | .ok fs' => folderMoveItems fs' p rest (acc ++ [⟨[s], [p, s]⟩])
            | .error e => ⟨fs, acc ++ [⟨[s], [p, s]⟩], some e⟩
          else folderMoveItems fs p rest acc) from rfl]
      rw [if_neg (fun h => hsp s (List.mem_cons_self _ _) h.symm), if_pos hsd, hmv']
      dsimp only
      rw [show fwdAll fs (mkActD p s :: rest.map (mkActD p)) =
          fwdAll (renameP fs (mkActD p s)) (rest.map (mkActD p)) from rfl]
      rw [show acc ++ mkActD p s :: List.map (mkActD p) rest =
          (acc ++ [mkActD p s]) ++ List.map (mkActD p) rest by
        rw [List.append_cons]]
      exact he
    · rw [show fwdAll fs (mkActD p s :: rest.map (mkActD p)) =
          fwdAll (renameP fs (mkActD p s)) (rest.map (mkActD p)) from rfl]
      exact hrp
    · rw [show fwdAll fs (mkActD p s :: rest.map (mkActD p)) =
          fwdAll (renameP fs (mkActD p s)) (rest.map (mkActD p)) from rfl]
      exact hcf
    · rw [show fwdAll fs (mkActD p s :: rest.map (mkActD p)) =
          fwdAll (renameP fs (mkActD p s)) (rest.map (mkActD p)) from rfl]
      exact hdf

/-- The category loop of FolderOrganizer.execute_plan equals the pure forward
replay of the planned (non-standalone) actions. -/
theorem folderExecCats_replay (plan : FoldersPlan) :
    ∀ fs acc,
      ReplayPre fs (plannedActsD plan) →
      (∀ kv ∈ plan, kv.1 ≠ "_standalone" → kv.2 ≠ []) →
      (∀ kv ∈ plan, kv.1 ≠ "_standalone" → ∀ s ∈ kv.2, s ≠ kv.1) →
      (∀ a ∈ plannedActsD plan, a.source ∈ fs.dirs) →
      folderExecCats fs plan acc =
        ⟨fwdAll fs (plannedActsD plan), acc ++ plannedActsD plan, none⟩ := by
  induction plan with
  | nil =>
    intro fs acc hpre hne hself hdirs
    show (⟨fs, acc, none⟩ : ExecOut) = ⟨fs, acc ++ [], none⟩
    rw [List.append_nil]
  | cons kv rest ih =>
    obtain ⟨p, subs⟩ := kv
    intro fs acc hpre hne hself hdirs
    by_cases hstand : p = "_standalone"
    · subst hstand
      have hplan : plannedActsD (("_standalone", subs) :: rest) = plannedActsD rest := by
        unfold plannedActsD
        rw [show List.filter (fun kv => kv.1 != "_standalone") (("_standalone", subs) :: rest)
            = List.filter (fun kv => kv.1 != "_standalone") rest by
          rw [List.filter_cons]
          simp]
      rw [hplan] at hpre hdirs ⊢
      rw [show folderExecCats fs (("_standalone", subs) :: rest) acc =
          (if "_standalone" = "_standalone" then folderExecCats fs rest acc
          else match fs.mkdirs ["_standalone"] with
          | .error e => ⟨fs, acc, some e⟩
          | .ok fs1 =>
            match folderMoveItems fs1 "_standalone" subs acc with
            | ⟨fs2, acts2, none⟩ => folderExecCats fs2 rest acts2
            | r => r) from rfl]
      rw [if_pos rfl]
      exact ih fs acc hpre (fun kv hkv h => hne kv (List.mem_cons_of_mem _ hkv) h)
        (fun kv hkv h s hs => hself kv (List.mem_cons_of_mem _ hkv) h s hs) hdirs
    · have hplan : plannedActsD ((p, subs) :: rest) =
          subs.map (mkActD p) ++ plannedActsD rest := by
        unfold plannedActsD
        rw [show List.filter (fun kv => kv.1 != "_standalone") ((p, subs) :: rest)
            = (p, subs) :: List.filter (fun kv => kv.1 != "_standalone") rest by
          rw [List.filter_cons]
          simp [hstand]]
        rfl
      rw [hplan] at hpre hdirs ⊢
      have hne0 : subs ≠ [] := hne (p, subs) (List.mem_cons_self _ _) hstand
      obtain ⟨s0, subs', hsubs⟩ := List.exists_cons_of_ne_nil hne0
      subst hsubs
      rw [List.map_cons, List.cons_append] at hpre hdirs
      have hma0 : ActMid fs (mkActD p s0) := hpre.2.1 _ (List.mem_cons_self _ _)
      have hpf : [p] ∉ fs.files := hma0.2.2.2.2.2.1
      rw [show folderExecCats fs ((p, s0 :: subs') :: rest) acc =
          (if p = "_standalone" then folderExecCats fs rest acc
          else match fs.mkdirs [p] with
          | .error e => ⟨fs, acc, some e⟩
          | .ok fs1 =>
            match folderMoveItems fs1 p (s0 :: subs') acc with
            | ⟨fs2, acts2, none⟩ => folderExecCats fs2 rest acts2
            | r => r) from rfl]
      rw [if_neg hstand, mkdirs_single fs p hpf]
      dsimp only
      have hpre1 : ReplayPre ⟨fs.files, if [p] ∈ fs.dirs then fs.dirs else fs.dirs ++ [[p]]⟩
          ((s0 :: subs').map (mkActD p) ++ plannedActsD rest) :=
        replayPre_mkdir_pad fs p _ hpre hpf
      have hc1 : [p] ∈ (⟨fs.files, if [p] ∈ fs.dirs then fs.dirs
          else fs.dirs ++ [[p]]⟩ : FS).dirs := by
        dsimp only
        by_cases hcc : [p] ∈ fs.dirs
        · rw [if_pos hcc]; exact hcc
        · rw [if_neg hcc]; exact List.mem_append_right _ (List.mem_singleton.mpr rfl)
      have hdirs1 : ∀ a ∈ mkActD p s0 :: (subs'.map (mkActD p) ++ plannedActsD rest),
          a.source ∈ (⟨fs.files, if [p] ∈ fs.dirs then fs.dirs
            else fs.dirs ++ [[p]]⟩ : FS).dirs := by
        intro a ha
        have hsrc := hdirs a ha
        dsimp only
        by_cases hcc : [p] ∈ fs.dirs
        · rw [if_pos hcc]; exact hsrc
        · rw [if_neg hcc]; exact List.mem_append_left _ hsrc
      obtain ⟨he, hrp, hcd, hdd⟩ := folderMoveItems_replay p (s0 :: subs') _ acc
        (plannedActsD rest) hpre1 hc1
        (fun s' hs' => hself (p, s0 :: subs') (List.mem_cons_self _ _) hstand s' hs')
        hdirs1
      rw [he]
      dsimp only
      rw [ih _ _ hrp (fun kv hkv h => hne kv (List.mem_cons_of_mem _ hkv) h)
        (fun kv hkv h s hs => hself kv (List.mem_cons_of_mem _ hkv) h s hs) hdd]
      rw [List.map_cons]
      rw [fwdAll_append fs (mkActD p s0 :: subs'.map (mkActD p)) (plannedActsD rest)]
      rw [← fwdAll_pad_eq fs (mkActD p s0) (subs'.map (mkActD p)) p rfl]
      rw [List.append_assoc]

/-- C1 (amended): in each mode separately, for a plan whose planned moves
satisfy the independence preconditions and whose destination categories are
entirely fresh, a successful apply records the planned actions, undo
restores the exact pre-apply layout, and redo restores the exact post-apply
layout; the files-mode part depends only on the files-mode plan's
preconditions, the folders-mode part only on the folders-mode plan's. -/
theorem c1_round_trip_amended (w : World) (planF : FilesPlan) (planD : FoldersPlan) :
    (ReplayPre w.fs (plannedActsF planF) →
      (∀ kv ∈ planF, kv.2 ≠ []) →
      plannedActsF planF ≠ [] →
      (∀ a ∈ plannedActsF planF, Fresh w.fs (parentDir a.dest)) →
      applyFilesPlan w planF =
          (⟨fwdAll w.fs (plannedActsF planF), some (plannedActsF planF), w.redoLog⟩, none) ∧
        UndoManager.run ⟨fwdAll w.fs (plannedActsF planF), some (plannedActsF planF),
            w.redoLog⟩ =
          (⟨w.fs, none, some (plannedActsF planF)⟩, none) ∧
        RedoManager.run ⟨w.fs, none, some (plannedActsF planF)⟩ =
          (⟨fwdAll w.fs (plannedActsF planF), some (plannedActsF planF), none⟩, none)) ∧
    (ReplayPre w.fs (plannedActsD planD) →
      (∀ kv ∈ planD, kv.1 ≠ "_standalone" → kv.2 ≠ []) →
      (∀ kv ∈ planD, kv.1 ≠ "_standalone" → ∀ s ∈ kv.2, s ≠ kv.1) →
      (∀ a ∈ plannedActsD planD, a.source ∈ w.fs.dirs) →
      plannedActsD planD ≠ [] →
      (∀ a ∈ plannedActsD planD, Fresh w.fs (parentDir a.dest)) →
      applyFoldersPlan w planD =
          (⟨fwdAll w.fs (plannedActsD planD), some (plannedActsD planD), w.redoLog⟩, none) ∧
        UndoManager.run ⟨fwdAll w.fs (plannedActsD planD), some (plannedActsD planD),
            w.redoLog⟩ =
          (⟨w.fs, none, some (plannedActsD planD)⟩, none) ∧
        RedoManager.run ⟨w.fs, none, some (plannedActsD planD)⟩ =
          (⟨fwdAll w.fs (plannedActsD planD), some (plannedActsD planD), none⟩, none)) := by
  constructor
  · intro hpreF hneF hFne hfreshF
    have hlenF : ∀ a ∈ plannedActsF planF, (parentDir a.dest).length = 1 := by
      intro a ha
      have hl := (hpreF.2.1 a ha).1
      unfold parentDir
      rw [List.length_dropLast, hl]
    obtain ⟨hfwdF, hbwdF⟩ := replay_roundtrip (plannedActsF planF) w.fs hpreF
    have hcleanF := cleanup_after_undo w.fs (plannedActsF planF) hlenF hfreshF
    have hexecF := fileExecCats_replay planF w.fs [] hpreF hneF
    refine ⟨?_, ?_, ?_⟩
    · unfold applyFilesPlan FileOrganizer.execute_plan
      rw [hexecF]
      dsimp only
      rw [List.nil_append]
      rw [if_neg (fun h => hFne (List.isEmpty_iff.mp h))]
      rfl
    · unfold UndoManager.run
      dsimp only
      rw [hbwdF]
      dsimp only
      rw [hcleanF]
    · unfold RedoManager.run
      dsimp only
      rw [hfwdF]
  · intro hpreD hneD hselfD hdirsD hDne hfreshD
    have hlenD : ∀ a ∈ plannedActsD planD, (parentDir a.dest).length = 1 := by
      intro a ha
      have hl := (hpreD.2.1 a ha).1
      unfold parentDir
      rw [List.length_dropLast, hl]
    obtain ⟨hfwdD, hbwdD⟩ := replay_roundtrip (plannedActsD planD) w.fs hpreD
    have hcleanD := cleanup_after_undo w.fs (plannedActsD planD) hlenD hfreshD
    have hexecD := folderExecCats_replay planD w.fs [] hpreD hneD hselfD hdirsD
    refine ⟨?_, ?_, ?_⟩
    · unfold applyFoldersPlan FolderOrganizer.execute_plan
      rw [hexecD]
      dsimp only
      rw [List.nil_append]
      rw [if_neg (fun h => hDne (List.isEmpty_iff.mp h))]
      rfl
    · unfold UndoManager.run
      dsimp only
      rw [hbwdD]
      dsimp only
      rw [hcleanD]
    · unfold RedoManager.run
      dsimp only
      rw [hfwdD]

instance (fs : FS) (d : RelPath) : Decidable (Fresh fs d) := by
  unfold Fresh
  exact List.decidableBAll _ _

instance (fs : FS) (a : UndoAction) : Decidable (ActMid fs a) := by
  unfold ActMid
  infer_instance

instance (a b : UndoAction) : Decidable (ActIndep a b) := by
  unfold ActIndep
  infer_instance

instance (fs : FS) (acts : List UndoAction) : Decidable (ReplayPre fs acts) := by
  unfold ReplayPre
  infer_instance

/-- Witness for C1: a one-file files plan and a one-folder folders plan on a
small filesystem satisfy every precondition, and the round trip holds. -/
theorem c1_round_trip_witness :
    (applyFilesPlan ⟨⟨[["f1"]], [["d1"]]⟩, none, none⟩ [("Cat", [Member.plainPath ["f1"]])] =
        (⟨fwdAll ⟨[["f1"]], [["d1"]]⟩ (plannedActsF [("Cat", [Member.plainPath ["f1"]])]),
          some (plannedActsF [("Cat", [Member.plainPath ["f1"]])]), none⟩, none) ∧
      UndoManager.run ⟨fwdAll ⟨[["f1"]], [["d1"]]⟩
            (plannedActsF [("Cat", [Member.plainPath ["f1"]])]),
          some (plannedActsF [("Cat", [Member.plainPath ["f1"]])]), none⟩ =
        (⟨⟨[["f1"]], [["d1"]]⟩, none,
          some (plannedActsF [("Cat", [Member.plainPath ["f1"]])])⟩, none) ∧
      RedoManager.run ⟨⟨[["f1"]], [["d1"]]⟩, none,
          some (plannedActsF [("Cat", [Member.plainPath ["f1"]])])⟩ =
        (⟨fwdAll ⟨[["f1"]], [["d1"]]⟩ (plannedActsF [("Cat", [Member.plainPath ["f1"]])]),
          some (plannedActsF [("Cat", [Member.plainPath ["f1"]])]), none⟩, none)) ∧
    (applyFoldersPlan ⟨⟨[["f1"]], [["d1"]]⟩, none, none⟩ [("Grp", ["d1"])] =
        (⟨fwdAll ⟨[["f1"]], [["d1"]]⟩ (plannedActsD [("Grp", ["d1"])]),
          some (plannedActsD [("Grp", ["d1"])]), none⟩, none) ∧
      UndoManager.run ⟨fwdAll ⟨[["f1"]], [["d1"]]⟩ (plannedActsD [("Grp", ["d1"])]),
          some (plannedActsD [("Grp", ["d1"])]), none⟩ =
        (⟨⟨[["f1"]], [["d1"]]⟩, none, some (plannedActsD [("Grp", ["d1"])])⟩, none) ∧
      RedoManager.run ⟨⟨[["f1"]], [["d1"]]⟩, none, some (plannedActsD [("Grp", ["d1"])])⟩ =
        (⟨fwdAll ⟨[["f1"]], [["d1"]]⟩ (plannedActsD [("Grp", ["d1"])]),
          some (plannedActsD [("Grp", ["d1"])]), none⟩, none)) :=
  ⟨(c1_round_trip_amended ⟨⟨[["f1"]], [["d1"]]⟩, none, none⟩
      [("Cat", [Member.plainPath ["f1"]])] [("Grp", ["d1"])]).1
    (by decide) (by decide) (by decide) (by decide),
   (c1_round_trip_amended ⟨⟨[["f1"]], [["d1"]]⟩, none, none⟩
      [("Cat", [Member.plainPath ["f1"]])] [("Grp", ["d1"])]).2
    (by decide) (by decide) (by decide) (by decide) (by decide) (by decide)⟩

/-- C1 counterexample: a category directory that already existed (empty)
before the apply is deleted by the undo cleanup pass, so undo does not
restore the exact pre-apply layout. -/
theorem c1_preexisting_dir_counterexample :
    (applyFilesPlan ⟨⟨[["a"]], [["Docs"]]⟩, none, none⟩
        [("Docs", [Member.plainPath ["a"]])]).2 = none ∧
    (applyFilesPlan ⟨⟨[["a"]], [["Docs"]]⟩, none, none⟩
        [("Docs", [Member.plainPath ["a"]])]).1.undoLog = some [⟨["a"], ["Docs", "a"]⟩] ∧
    (UndoManager.run (applyFilesPlan ⟨⟨[["a"]], [["Docs"]]⟩, none, none⟩
        [("Docs", [Member.plainPath ["a"]])]).1).2 = none ∧
    (UndoManager.run (applyFilesPlan ⟨⟨[["a"]], [["Docs"]]⟩, none, none⟩
        [("Docs", [Member.plainPath ["a"]])]).1).1.fs ≠ (⟨[["a"]], [["Docs"]]⟩ : FS) := by
  decide
